import Mathlib

/-!
# Trance image pipeline: a shallow embedding of `src/image.cpp`

The definitions below follow the C++ source function by function.

* C++ `std::string` values are lists of characters.
* `uint8_t` values are `Fin 256`; `uint32_t` and `std::size_t` values are
  natural numbers, reduced modulo `2^32` and `2^64` where the source
  arithmetic can wrap.
* A C++ exception or an access outside an allocation is the result `none`.
-/

namespace Trance

/-! ## Common machine-level helpers -/

/-- An 8-bit unsigned value (`uint8_t`, `unsigned char`, `GifByteType`). -/
abbrev Byte := Fin 256

/-- Wrap-around of `uint32_t` arithmetic. -/
def u32 (n : Nat) : Nat := n % 2 ^ 32

/-- Wrap-around of `std::size_t` arithmetic (64-bit target). -/
def size_t (n : Nat) : Nat := n % 2 ^ 64

/-- A counted C `for (i = 0; i < n; ++i)` loop over a state; the body of
iteration `i` is `body i`, and a failing iteration fails the loop. -/
def for_loop {σ : Type} : Nat → (Nat → σ → Option σ) → σ → Option σ
  | 0, _, s => some s
  | n + 1, body, s => (for_loop n body s).bind (body n)

/-! ## `FrameExporter` (image.cpp lines 399-422) -/

/-- The value of `std::to_string` on an unsigned integer: its decimal form. -/
def to_string (n : Nat) : List Char := Nat.toDigits 10 n

/-- The constant `std::string::npos`. -/
def npos : Nat := 2 ^ 64 - 1

/-- An upper bound on `std::string::max_size()`: constructing a longer string
throws `std::length_error`. -/
def string_max_size : Nat := 2 ^ 63 - 1

/-- Position of the last occurrence of `c` in `s`, if there is one. -/
def last_index_of : List Char → Char → Option Nat
  | [], _ => none
  | x :: xs, c =>
    match last_index_of xs c with
    | some i => some (i + 1)
    | none => if x = c then some 0 else none

/-- The value of `std::string::find_last_of(c)`: the position of the last
occurrence of `c`, or `npos`. -/
def find_last_of (s : List Char) (c : Char) : Nat :=
  (last_index_of s c).getD npos

/-- The value of `std::string::substr(pos, n)`; it throws `std::out_of_range`
when `pos` exceeds the size. -/
def substr (s : List Char) (pos n : Nat) : Option (List Char) :=
  if pos > s.length then none else some ((s.drop pos).take n)

/-- The value of `std::string(n, c)`; it throws `std::length_error` when `n`
exceeds the maximal size. -/
def string_fill (n : Nat) (c : Char) : Option (List Char) :=
  if n > string_max_size then none else some (List.replicate n c)

/-- State of a `FrameExporter`. -/
structure FrameExporter where
  _path : List Char
  _width : Nat
  _height : Nat
  _total_frames : Nat
  _frame : Nat
deriving DecidableEq

/-- A file handed to `sf::Image::saveToFile`. -/
structure SavedFile where
  path : List Char
  width : Nat
  height : Nat
  data : List Byte
deriving DecidableEq

/-- The constructor `FrameExporter::FrameExporter`. -/
def FrameExporter.create (path : List Char) (width height total_frames : Nat) :
    FrameExporter :=
  ⟨path, width, height, total_frames, 0⟩

/-- The `padding` computed by `FrameExporter::encode_frame`: a difference of
two `std::size_t` lengths. -/
def frame_padding (total_frames frame : Nat) : Nat :=
  size_t ((to_string total_frames).length + 2 ^ 64 - (to_string frame).length)

/-- The numeric segment `std::string(padding, '0') + counter_str` that
`FrameExporter::encode_frame` inserts into the file name. -/
def frame_segment (total_frames frame : Nat) : Option (List Char) :=
  (string_fill (frame_padding total_frames frame) '0').map
    (fun zeros => zeros ++ to_string frame)

/-- The method `FrameExporter::encode_frame`: the file it saves and the
exporter state afterwards. -/
def FrameExporter.encode_frame (fe : FrameExporter) (data : List Byte) :
    Option (SavedFile × FrameExporter) :=
  let index := find_last_of fe._path '.'
  match substr fe._path 0 index, frame_segment fe._total_frames fe._frame,
      substr fe._path index npos with
  | some head, some segment, some tail =>
    some (⟨head ++ '_' :: segment ++ tail, fe._width, fe._height, data⟩,
      ⟨fe._path, fe._width, fe._height, fe._total_frames, u32 (fe._frame + 1)⟩)
  | _, _, _ => none

/-! ## `Image` (image.cpp lines 238-280) -/

/-- An `Image`: its dimensions, its texture handle and the pixels copied into
its `sf::Image`, one `uint32_t` word per pixel. -/
structure Image where
  _width : Nat
  _height : Nat
  _texture : Nat
  pixels : List Nat
deriving DecidableEq

/-- The constructor `Image::Image(width, height, data)`: the pixel data is
copied and the texture handle starts at 0. -/
def Image.create (width height : Nat) (data : List Nat) : Image :=
  ⟨width, height, 0, data⟩

/-! ## `load_animation_gif` (image.cpp lines 19-100)

The structures are those of `gif_lib.h`, restricted to the fields the source
reads. The counts `ImageCount` and `ExtensionBlockCount` are the lengths of
the lists they describe. The GIF fields are `int` values read from unsigned
16-bit file fields; an index too large for an `int` lies beyond every
allocation and is covered by the bounds checks. -/

/-- The constant `GRAPHICS_EXT_FUNC_CODE` of `gif_lib.h`. -/
def GRAPHICS_EXT_FUNC_CODE : Nat := 0xf9

structure GifColorType where
  Red : Byte
  Green : Byte
  Blue : Byte
deriving DecidableEq

structure ColorMapObject where
  Colors : List GifColorType
deriving DecidableEq

structure GifImageDesc where
  Left : Nat
  Top : Nat
  Width : Nat
  Height : Nat
  ColorMap : Option ColorMapObject
deriving DecidableEq

structure ExtensionBlock where
  Function : Nat
  Bytes : List Byte
deriving DecidableEq

structure SavedImage where
  ImageDesc : GifImageDesc
  RasterBits : List Byte
  ExtensionBlocks : List ExtensionBlock
deriving DecidableEq

structure GifFileType where
  SWidth : Nat
  SHeight : Nat
  SBackGroundColor : Nat
  SColorMap : Option ColorMapObject
  SavedImages : List SavedImage
deriving DecidableEq

/-- The field `ImageCount`. -/
def GifFileType.ImageCount (gif : GifFileType) : Nat := gif.SavedImages.length

/-- What `DGifOpenFileName` followed by `DGifSlurp` delivers. -/
inductive GifSource where
  | open_failed
  | slurp_failed
  | parsed (gif : GifFileType)

/-- The assignment `a[i] = v` into an array of known extent; an index outside
the array is an access outside the allocation. -/
def store {α : Type} (a : List α) (i : Nat) (v : α) : Option (List α) :=
  if i < a.length then some (a.set i v) else none

/-- The loop `for (k = 0; k < width * height; ++k) pixels[k] = SBackGroundColor`. -/
def fill_background (gif : GifFileType) (pixels : List Nat) : Option (List Nat) :=
  for_loop (gif.SWidth * gif.SHeight)
    (fun k px => store px k gif.SBackGroundColor) pixels

/-- The locals `transparency`, `transparency_byte` and the canvas while the
extension blocks of a frame are scanned. -/
structure FrameControl where
  transparency : Bool
  transparency_byte : Byte
  pixels : List Nat
deriving DecidableEq

/-- The disposal method `(Bytes[0] >> 2) & 7` of a graphics-control block. -/
def dispose_of (b0 : Byte) : Nat := (b0.val >>> 2) &&& 7

/-- One iteration of the loop over `frame.ExtensionBlocks` (lines 53-69). -/
def extension_step (gif : GifFileType) (block : ExtensionBlock) (st : FrameControl) :
    Option FrameControl :=
  if block.Function ≠ GRAPHICS_EXT_FUNC_CODE then some st
  else
    match block.Bytes[0]?, block.Bytes[1]?, block.Bytes[2]?, block.Bytes[3]? with
    | some b0, some _, some _, some b3 =>
      if dispose_of b0 = 2 then
        (fill_background gif st.pixels).map
          (fun px => ⟨decide (b0.val &&& 1 ≠ 0), b3, px⟩)
      else some ⟨decide (b0.val &&& 1 ≠ 0), b3, st.pixels⟩
    | _, _, _, _ => none

/-- The loop over `frame.ExtensionBlocks` (lines 48-69). -/
def scan_extensions (gif : GifFileType) (frame : SavedImage) (pixels : List Nat) :
    Option FrameControl :=
  frame.ExtensionBlocks.foldlM (fun st block => extension_step gif block st)
    ⟨false, 0, pixels⟩

/-- The colour table `map` of a frame (lines 70-71): the local table if
present, else the global one. -/
def color_map (gif : GifFileType) (frame : SavedImage) : Option ColorMapObject :=
  match frame.ImageDesc.ColorMap with
  | some m => some m
  | none => gif.SColorMap

/-- The canvas index `fl + x + (ft + y) * width` written at frame coordinate
`(x, y)` (line 86). -/
def pixel_index (gif : GifFileType) (frame : SavedImage) (x y : Nat) : Nat :=
  frame.ImageDesc.Left + x + (frame.ImageDesc.Top + y) * gif.SWidth

/-- The word `c.Red | (c.Green << 8) | (c.Blue << 16) | (0xff << 24)`. -/
def rgba_word (c : GifColorType) : Nat :=
  c.Red.val ||| (c.Green.val <<< 8) ||| (c.Blue.val <<< 16) ||| (0xff <<< 24)

/-- The body of the compositing loops (lines 80-87) at frame coordinate
`(x, y)`. -/
def put_pixel (gif : GifFileType) (frame : SavedImage) (transparency : Bool)
    (transparency_byte : Byte) (y x : Nat) (pixels : List Nat) : Option (List Nat) :=
  match frame.RasterBits[x + y * frame.ImageDesc.Width]? with
  | none => none
  | some byte =>
    if transparency && byte == transparency_byte then some pixels
    else
      match color_map gif frame with
      | none => none
      | some map =>
        match map.Colors[byte.val]? with
        | none => none
        | some c => store pixels (pixel_index gif frame x y) (rgba_word c)

/-- The compositing loops of one frame (lines 73-89). -/
def composite (gif : GifFileType) (frame : SavedImage) (transparency : Bool)
    (transparency_byte : Byte) (pixels : List Nat) : Option (List Nat) :=
  for_loop (min gif.SHeight frame.ImageDesc.Height)
    (fun y px =>
      for_loop (min gif.SWidth frame.ImageDesc.Width)
        (fun x px => put_pixel gif frame transparency transparency_byte y x px) px)
    pixels

/-- The canvas after one iteration of the loop over the frames, before the
snapshot (lines 47-89). -/
def process_frame (gif : GifFileType) (frame : SavedImage) (pixels : List Nat) :
    Option (List Nat) :=
  (scan_extensions gif frame pixels).bind
    (fun st => composite gif frame st.transparency st.transparency_byte st.pixels)

/-- One iteration of the loop over the frames (lines 46-93): the canvas and
the `result` vector. -/
def frame_step (gif : GifFileType) (st : List Nat × List Image) (frame : SavedImage) :
    Option (List Nat × List Image) :=
  (process_frame gif frame st.1).map
    (fun px => (px, st.2 ++ [Image.create gif.SWidth gif.SHeight px]))

/-- The canvas as allocated and filled by lines 38-43. -/
def initial_canvas (gif : GifFileType) : Option (List Nat) :=
  if gif.SWidth * gif.SHeight < 2 ^ 31 then
    fill_background gif (List.replicate (gif.SWidth * gif.SHeight) 0)
  else none

/-- The function `load_animation_gif`. The result `none` stands for undefined
behaviour (arithmetic overflow or an access outside an array). The outcome of
`DGifCloseFile` only changes the diagnostic output and is left out. -/
def load_animation_gif (src : GifSource) : Option (List Image) :=
  match src with
  | .open_failed => some []
  | .slurp_failed => some []
  | .parsed gif =>
    (initial_canvas gif).bind (fun pixels =>
      (gif.SavedImages.foldlM (frame_step gif) (pixels, [])).map (fun st => st.2))

/-! ## `load_animation_webm` (image.cpp lines 102-231)

The container parser and the VP8 decoder are libraries outside the
repository; a `WebmFile` records what their calls return during one run. -/

/-- The constant `mkvparser::Track::kVideo` of libwebm. -/
def kVideo : Nat := 1

/-- The constant `mkvparser::Track::kAudio` of libwebm. -/
def kAudio : Nat := 2

/-- The codec name the source compares with. -/
def VP8 : List Char := ['V', 'P', '8']

/-- A container track: the values of `GetType()`, `GetCodecNameAsUTF8()` (a C
string, possibly null) and `GetNumber()`. -/
structure Track where
  type : Nat
  codec_name : Option (List Char)
  number : Nat
deriving DecidableEq

/-- A decoded picture (`vpx_image_t`): display size, the three planes and
their strides. -/
structure vpx_image where
  d_w : Nat
  d_h : Nat
  planeY : List Byte
  planeU : List Byte
  planeV : List Byte
  strideY : Nat
  strideU : Nat
  strideV : Nat
deriving DecidableEq

/-- One compressed frame of a block: whether `vpx_codec_decode` reports an
error on it, and the pictures `vpx_codec_get_frame` then yields. -/
structure CompressedFrame where
  decode_error : Bool
  pictures : List vpx_image
deriving DecidableEq

/-- A block entry: its track number, its frames, and whether the
`cluster->GetNext` call after it fails. -/
structure Block where
  track_number : Nat
  frames : List CompressedFrame
  next_error : Bool
deriving DecidableEq

/-- A cluster: whether `cluster->GetFirst` fails, and its block entries. -/
structure Cluster where
  first_error : Bool
  blocks : List Block
deriving DecidableEq

/-- The outcomes of the library calls of one run of `load_animation_webm`.
An entry `none` of `tracks` is a null pointer from `GetTrackByIndex`. -/
structure WebmFile where
  open_error : Bool
  create_error : Bool
  load_error : Bool
  tracks : List (Option Track)
  init_error : Bool
  clusters : List Cluster
  destroy_error : Bool
deriving DecidableEq

/-- The condition of line 131-132,
`track && track->GetType() && kVideo || track->GetCodecNameAsUTF8() == "VP8"`,
with the precedence and short-circuit evaluation of C++. The result `none` is
a null dereference. -/
def track_condition (track : Option Track) : Option Bool :=
  let lhs : Bool :=
    match track with
    | none => false
    | some t => t.type != 0 && kVideo != 0
  if lhs then some true
  else
    match track with
    | none => none
    | some t =>
      match t.codec_name with
      | none => none
      | some name => some (name == VP8)

/-- The track-selection loop (lines 128-136): the first track satisfying the
condition, or the null pointer. -/
def find_video_track : List (Option Track) → Option (Option Track)
  | [] => some none
  | track :: rest =>
    match track_condition track with
    | none => none
    | some true => some track
    | some false => find_video_track rest

/-- The `Image` built from a decoded picture (line 211); `rgba` stands for the
floating-point conversion loop of lines 187-209. -/
def picture_image (rgba : vpx_image → List Nat) (img : vpx_image) : Image :=
  Image.create img.d_w img.d_h (rgba img)

/-- The loop over the frames of a block (lines 173-214); `none` is the early
`return {}`. -/
def decode_frames (rgba : vpx_image → List Nat) :
    List CompressedFrame → List Image → Option (List Image)
  | [], result => some result
  | frame :: rest, result =>
    if frame.decode_error then none
    else decode_frames rgba rest (result ++ frame.pictures.map (picture_image rgba))

/-- The loop over the block entries of a cluster (lines 170-222); `none` is
the early `return {}`. -/
def decode_blocks (rgba : vpx_image → List Nat) (number : Nat) :
    List Block → List Image → Option (List Image)
  | [], result => some result
  | b :: rest, result =>
    match (if b.track_number = number then decode_frames rgba b.frames result
           else some result) with
    | none => none
    | some result1 =>
      if b.next_error then none else decode_blocks rgba number rest result1

/-- The loop over the clusters (lines 161-223); `none` is the early
`return {}`. -/
def decode_clusters (rgba : vpx_image → List Nat) (number : Nat) :
    List Cluster → List Image → Option (List Image)
  | [], result => some result
  | c :: rest, result =>
    if c.first_error then none
    else
      match decode_blocks rgba number c.blocks result with
      | none => none
      | some result1 => decode_clusters rgba number rest result1

/-- The function `load_animation_webm`. The result `none` stands for
undefined behaviour (a null dereference during track selection). -/
def load_animation_webm (rgba : vpx_image → List Nat) (file : WebmFile) :
    Option (List Image) :=
  if file.open_error then some []
  else if file.create_error then some []
  else if file.load_error then some []
  else
    match find_video_track file.tracks with
    | none => none
    | some none => some []
    | some (some video_track) =>
      if file.init_error then some []
      else
        match decode_clusters rgba video_track.number file.clusters [] with
        | none => some []
        | some result => if file.destroy_error then some [] else some result

/-- The pictures decoded from the blocks of track `number`, in container
order: what a run without errors has produced when teardown starts. -/
def decoded_pictures (number : Nat) (clusters : List Cluster) : List vpx_image :=
  (clusters.map (fun c =>
    ((c.blocks.filter (fun b => b.track_number = number)).map
      (fun b => (b.frames.map (fun f => f.pictures)).flatten)).flatten)).flatten

/-- Every container and decode step of a run on track `number` succeeds. -/
def steps_succeed (number : Nat) (file : WebmFile) : Bool :=
  !file.open_error && !file.create_error && !file.load_error && !file.init_error &&
  file.clusters.all (fun c =>
    !c.first_error &&
    c.blocks.all (fun b =>
      !b.next_error &&
      (b.track_number != number || b.frames.all (fun f => !f.decode_error))))

/-! ## `WebmExporter::encode_frame` (image.cpp lines 495-518) -/

/-- Conversion of an `int` value to `uint8_t`. -/
def to_byte (n : Nat) : Byte := ⟨n % 256, Nat.mod_lt n (by decide)⟩

/-- The body of the luma loops (lines 500-501). The `uint32_t` index
expressions wrap modulo `2^32`; reducing once at the end gives the same
value as reducing after each operation. -/
def luma_step (width : Nat) (data : List Byte) (y x : Nat) (img : vpx_image) :
    Option vpx_image :=
  match data[u32 (4 * (x + y * width))]? with
  | none => none
  | some v =>
    (store img.planeY (u32 (x + y * img.strideY)) v).map
      (fun p => { img with planeY := p })

/-- The body of the chroma loops (lines 506-514). -/
def chroma_step (width : Nat) (data : List Byte) (y x : Nat) (img : vpx_image) :
    Option vpx_image :=
  let c00 := u32 (4 * (2 * x + 2 * y * width))
  let c01 := u32 (4 * (2 * x + (1 + 2 * y) * width))
  let c10 := u32 (4 * (1 + 2 * x + 2 * y * width))
  let c11 := u32 (4 * (1 + 2 * x + (1 + 2 * y) * width))
  match data[u32 (1 + c00)]?, data[u32 (1 + c01)]?, data[u32 (1 + c10)]?,
      data[u32 (1 + c11)]?, data[u32 (2 + c00)]?, data[u32 (2 + c01)]?,
      data[u32 (2 + c10)]?, data[u32 (2 + c11)]? with
  | some u00, some u01, some u10, some u11, some v00, some v01, some v10, some v11 =>
    (store img.planeU (u32 (x + y * img.strideU))
      (to_byte ((u00.val + u01.val + u10.val + u11.val) / 4))).bind (fun pu =>
    (store img.planeV (u32 (x + y * img.strideV))
      (to_byte ((v00.val + v01.val + v10.val + v11.val) / 4))).map (fun pv =>
    { img with planeU := pu, planeV := pv }))
  | _, _, _, _, _, _, _, _ => none

/-- The method `WebmExporter::encode_frame` up to the call of `add_frame`: the
scratch image `_img` handed to the encoder. -/
def WebmExporter.encode_frame (width height : Nat) (data : List Byte)
    (img : vpx_image) : Option vpx_image :=
  (for_loop height
    (fun y s => for_loop width (fun x s => luma_step width data y x s) s) img).bind
  (fun img1 =>
    for_loop (height / 2)
      (fun y s => for_loop (width / 2) (fun x s => chroma_step width data y x s) s) img1)

/-! ## Specification-side notions -/

/-- The effect of one loop cell on an array: nothing, or one assignment. -/
def apply_cell {α : Type} (c : Option (Nat × α)) (l : List α) : List α :=
  match c with
  | none => l
  | some (i, v) => l.set i v

/-- The invariant of a two-level loop that performs at most one assignment
per cell `(y, x)`, as described by `cell`: the state is good, every index no
cell assigns still holds its initial value, and (when cells assigning the
same index agree on the value) the index of every finished cell holds the
value of that cell. -/
def FillInv {σ α : Type} (proj : σ → List α) (Good : σ → Prop)
    (cell : Nat → Nat → Option (Nat × α)) (h w : Nat) (s : σ)
    (Done : Nat → Nat → Prop) (t : σ) : Prop :=
  Good t ∧
  (∀ i, (∀ y, y < h → ∀ x, x < w → ∀ v, cell y x ≠ some (i, v)) →
    (proj t)[i]? = (proj s)[i]?) ∧
  ((∀ y, y < h → ∀ x, x < w → ∀ y1, y1 < h → ∀ x1, x1 < w → ∀ i v v1,
      cell y x = some (i, v) → cell y1 x1 = some (i, v1) → v = v1) →
    ∀ y, y < h → ∀ x, x < w → Done y x → ∀ i v, cell y x = some (i, v) →
      (proj t)[i]? = some v)

/-- The colour a raster byte resolves to through the colour table of a frame. -/
def lookup_color (gif : GifFileType) (frame : SavedImage) (byte : Byte) :
    Option GifColorType :=
  (color_map gif frame).bind (fun map => map.Colors[byte.val]?)

/-- The assignment `put_pixel` performs at frame coordinate `(x, y)`, if any. -/
def gif_cell (gif : GifFileType) (frame : SavedImage) (transparency : Bool)
    (transparency_byte : Byte) (y x : Nat) : Option (Nat × Nat) :=
  match frame.RasterBits[x + y * frame.ImageDesc.Width]? with
  | none => none
  | some byte =>
    if transparency && byte == transparency_byte then none
    else (lookup_color gif frame byte).map
      (fun c => (pixel_index gif frame x y, rgba_word c))

/-- The frame lies inside the canvas. -/
def frame_fits (gif : GifFileType) (frame : SavedImage) : Prop :=
  frame.ImageDesc.Left + frame.ImageDesc.Width ≤ gif.SWidth ∧
  frame.ImageDesc.Top + frame.ImageDesc.Height ≤ gif.SHeight

instance (gif : GifFileType) (frame : SavedImage) : Decidable (frame_fits gif frame) := by
  unfold frame_fits
  infer_instance

/-- Every canvas index the compositing loops of the frame compute lies inside
the canvas array. -/
def writes_in_bounds (gif : GifFileType) (frame : SavedImage) : Prop :=
  ∀ y, y < min gif.SHeight frame.ImageDesc.Height →
    ∀ x, x < min gif.SWidth frame.ImageDesc.Width →
      pixel_index gif frame x y < gif.SWidth * gif.SHeight

instance (gif : GifFileType) (frame : SavedImage) :
    Decidable (writes_in_bounds gif frame) := by
  unfold writes_in_bounds
  infer_instance

/-- The data of a frame is well formed: the raster has `Width * Height`
bytes, every raster byte has an entry in the colour table of the frame, and
every graphics-control block has its four bytes. -/
def frame_data_ok (gif : GifFileType) (frame : SavedImage) : Prop :=
  frame.ImageDesc.Width * frame.ImageDesc.Height ≤ frame.RasterBits.length ∧
  (∀ b ∈ frame.RasterBits, (lookup_color gif frame b).isSome = true) ∧
  (∀ block ∈ frame.ExtensionBlocks,
    block.Function = GRAPHICS_EXT_FUNC_CODE → 4 ≤ block.Bytes.length)

instance (gif : GifFileType) (frame : SavedImage) :
    Decidable (frame_data_ok gif frame) := by
  unfold frame_data_ok
  infer_instance

/-- The compositing loops of the frame write the canvas index `i`: some
visited frame coordinate that is not skipped as transparent maps to `i`. -/
def written (gif : GifFileType) (frame : SavedImage) (ctl : FrameControl) (i : Nat) :
    Prop :=
  ∃ y, y < min gif.SHeight frame.ImageDesc.Height ∧
    ∃ x, x < min gif.SWidth frame.ImageDesc.Width ∧
      ∃ byte, frame.RasterBits[x + y * frame.ImageDesc.Width]? = some byte ∧
        ¬ (ctl.transparency = true ∧ byte = ctl.transparency_byte) ∧
        pixel_index gif frame x y = i

/-- The invariant of the compositing loops of a frame over the canvas
`pixels`: the canvas has kept its size, and every index that no visited cell
assigns has kept its value. -/
def composite_keeps (gif : GifFileType) (frame : SavedImage) (transparency : Bool)
    (transparency_byte : Byte) (pixels t : List Nat) : Prop :=
  t.length = pixels.length ∧
    ∀ i, (∀ y, y < min gif.SHeight frame.ImageDesc.Height →
        ∀ x, x < min gif.SWidth frame.ImageDesc.Width →
          ∀ v, gif_cell gif frame transparency transparency_byte y x ≠ some (i, v)) →
      t[i]? = pixels[i]?

/-- The canvas after the first `n` frames have been processed. -/
def canvas_after (gif : GifFileType) (n : Nat) : Option (List Nat) :=
  (initial_canvas gif).bind (fun pixels =>
    (gif.SavedImages.take n).foldlM (fun px frame => process_frame gif frame px) pixels)

/-- Channel `c` of the texel `(x, y)` of a packed buffer with four bytes per
texel and `width` texels per row. -/
def texel (width : Nat) (data : List Byte) (x y c : Nat) : Option Byte :=
  data[4 * (x + y * width) + c]?

/-- The truncating average of channel `c` over the four texels `(2x, 2y)`,
`(2x+1, 2y)`, `(2x, 2y+1)`, `(2x+1, 2y+1)`. -/
def box_average (width : Nat) (data : List Byte) (x y c : Nat) : Option Nat :=
  match texel width data (2 * x) (2 * y) c, texel width data (2 * x + 1) (2 * y) c,
      texel width data (2 * x) (2 * y + 1) c, texel width data (2 * x + 1) (2 * y + 1) c with
  | some t00, some t10, some t01, some t11 =>
    some ((t00.val + t10.val + t01.val + t11.val) / 4)
  | _, _, _, _ => none

/-- The luma assignment of cell `(y, x)`. -/
def luma_cell (width : Nat) (data : List Byte) (stride : Nat) (y x : Nat) :
    Option (Nat × Byte) :=
  (texel width data x y 0).map (fun v => (x + y * stride, v))

/-- The chroma assignment of cell `(y, x)` for channel `c`. -/
def chroma_cell (width : Nat) (data : List Byte) (stride c : Nat) (y x : Nat) :
    Option (Nat × Byte) :=
  (box_average width data x y c).map (fun v => (x + y * stride, to_byte v))

/-- A full-canvas frame of a 2 by 2 GIF whose graphics-control block enables
transparency with transparent index 0 and has disposal method 0. -/
def sample_frame_keep : SavedImage :=
  ⟨⟨0, 0, 2, 2, none⟩, [0, 1, 1, 0], [⟨GRAPHICS_EXT_FUNC_CODE, [1, 0, 0, 0]⟩]⟩

/-- A frame of 1 by 2 pixels at `Left = 1` whose graphics-control block
enables transparency with transparent index 0 and has disposal method 2. -/
def sample_frame_clear : SavedImage :=
  ⟨⟨1, 0, 1, 2, none⟩, [1, 0], [⟨GRAPHICS_EXT_FUNC_CODE, [9, 0, 0, 0]⟩]⟩

/-- A GIF with a 2 by 2 canvas, a global table of two colours and the two
frames above. -/
def sample_gif : GifFileType :=
  ⟨2, 2, 0, some ⟨[⟨255, 0, 0⟩, ⟨0, 255, 0⟩]⟩, [sample_frame_keep, sample_frame_clear]⟩

/-- A frame of 2 by 2 pixels placed at `Left = 1`, `Top = 0` on a 2 by 2
canvas: its second column lies outside the canvas. -/
def overhanging_frame : SavedImage :=
  ⟨⟨1, 0, 2, 2, none⟩, [0, 1, 1, 0], []⟩

/-- A GIF with a 2 by 2 canvas whose only frame is `overhanging_frame`. -/
def overhanging_gif : GifFileType :=
  ⟨2, 2, 0, some ⟨[⟨255, 0, 0⟩, ⟨0, 255, 0⟩]⟩, [overhanging_frame]⟩

/-- A packed 2 by 2 frame, four bytes per texel. -/
def sample_texels : List Byte :=
  [10, 20, 30, 255, 11, 21, 31, 255, 12, 22, 33, 255, 13, 24, 35, 255]

/-- A scratch image for a 2 by 2 frame: four luma samples, one U and one V
sample. -/
def sample_scratch : vpx_image :=
  ⟨2, 2, [0, 0, 0, 0], [0], [0], 2, 1, 1⟩

/-- A decoded 1 by 1 picture. -/
def sample_picture : vpx_image := ⟨1, 1, [16], [128], [128], 1, 1, 1⟩

/-- A video track with codec name `"VP8"` and track number 1. -/
def vp8_track : Track := ⟨kVideo, some VP8, 1⟩

/-- An audio track with codec name `"A_VORBIS"` and track number 2. -/
def vorbis_track : Track :=
  ⟨kAudio, some ['A', '_', 'V', 'O', 'R', 'B', 'I', 'S'], 2⟩

/-- A run on a file with one VP8 video track and one compressed frame that
decodes to one picture; every library call succeeds. -/
def clean_run : WebmFile :=
  ⟨false, false, false, [some vp8_track], false,
    [⟨false, [⟨1, [⟨false, [sample_picture]⟩], false⟩]⟩], false⟩

/-- The same run, except that `vpx_codec_destroy` reports an error. -/
def failed_teardown_run : WebmFile :=
  ⟨false, false, false, [some vp8_track], false,
    [⟨false, [⟨1, [⟨false, [sample_picture]⟩], false⟩]⟩], true⟩

/-! ## `Image::ensure_texture_uploaded` (image.cpp lines 262-308)

OpenGL is a library outside the repository. What a call does to the GPU and
to the heap is recorded as the list of effects it issues, in order. -/

/-- The texture parameters the source sets. -/
inductive TexParam where
  | GL_TEXTURE_WRAP_S
  | GL_TEXTURE_WRAP_T
  | GL_TEXTURE_MAG_FILTER
  | GL_TEXTURE_MIN_FILTER
deriving DecidableEq

/-- The parameter values the source uses. -/
inductive TexValue where
  | GL_CLAMP
  | GL_LINEAR
deriving DecidableEq

/-- One effect of `Image::ensure_texture_uploaded`: an OpenGL command on the
target `GL_TEXTURE_2D`, or the creation of the `texture_deleter` that the
member `_deleter` is reset to. -/
inductive Effect where
  | glGenTextures (name : Nat)
  | new_texture_deleter (texture : Nat)
  | glBindTexture (texture : Nat)
  | glTexImage2D (width height : Nat) (pixels : List Nat)
  | glTexParameteri (pname : TexParam) (param : TexValue)
deriving DecidableEq

/-- The conversion `Image::operator bool` (lines 262-265): `_width && _height`. -/
def Image.operator_bool (img : Image) : Bool :=
  img._width != 0 && img._height != 0

/-- The method `Image::ensure_texture_uploaded`: its return value, the image
afterwards (the member `_texture` is mutable) and the effects issued so far.
The argument `gen` is the texture name that `glGenTextures(1, &_texture)`
stores, given the effects issued before it. -/
def Image.ensure_texture_uploaded (gen : List Effect → Nat) (img : Image)
    (log : List Effect) : Bool × Image × List Effect :=
  if img._texture != 0 || !img.operator_bool then (false, img, log)
  else
    let texture := gen log
    (true, { img with _texture := texture },
      log ++ [.glGenTextures texture, .new_texture_deleter texture,
        .glBindTexture texture, .glTexImage2D img._width img._height img.pixels,
        .glTexParameteri .GL_TEXTURE_WRAP_S .GL_CLAMP,
        .glTexParameteri .GL_TEXTURE_WRAP_T .GL_CLAMP,
        .glTexParameteri .GL_TEXTURE_MAG_FILTER .GL_LINEAR,
        .glTexParameteri .GL_TEXTURE_MIN_FILTER .GL_LINEAR])

/-- The texture handles allocated by the effects of a log, in order. -/
def allocated_textures : List Effect → List Nat
  | [] => []
  | .glGenTextures name :: rest => name :: allocated_textures rest
  | _ :: rest => allocated_textures rest

/-- The image and the effect log after `n` successive calls of
`ensure_texture_uploaded` on the same image. -/
def after_calls (gen : List Effect → Nat) : Nat → Image × List Effect → Image × List Effect
  | 0, s => s
  | n + 1, s =>
    ((Image.ensure_texture_uploaded gen (after_calls gen n s).1 (after_calls gen n s).2).2.1,
     (Image.ensure_texture_uploaded gen (after_calls gen n s).1 (after_calls gen n s).2).2.2)

/-- A texture name generator that never yields 0: one more than the number of
effects issued so far. -/
def sample_gen (log : List Effect) : Nat := log.length + 1

/-! ## The YUV to RGBA conversion of `load_animation_webm` (lines 192-207)

The source computes in `float`. A `float` value is a rational number, and
every floating-point literal, conversion and operation is followed by a
rounding `rnd`. The function `round_f32` is the rounding of IEEE 754 single
precision (round to nearest, ties to even, with the subnormal range; the
values of the conversion stay far below the overflow threshold), applied
after each operation as in an evaluation without contraction. -/

/-- Rounding of a rational to the nearest integer, ties to even. -/
def round_even (r : ℚ) : ℤ :=
  if r - ⌊r⌋ < 1 / 2 then ⌊r⌋
  else if 1 / 2 < r - ⌊r⌋ then ⌊r⌋ + 1
  else if ⌊r⌋ % 2 = 0 then ⌊r⌋ else ⌊r⌋ + 1

/-- The binary exponent of a positive magnitude in single precision: the
floor of its base-2 logarithm, held at -126 in the subnormal range. -/
def float_exponent (x : ℚ) : ℤ := max (Int.log 2 x) (-126)

/-- The unit in the last place of a 24-bit significand at magnitude `x`. -/
def float_ulp (x : ℚ) : ℚ := 2 ^ (float_exponent x - 23)

/-- Rounding of a non-negative magnitude to single precision. -/
def round_magnitude (x : ℚ) : ℚ := round_even (x / float_ulp x) * float_ulp x

/-- Rounding to IEEE 754 single precision, round to nearest, ties to even. -/
def round_f32 (x : ℚ) : ℚ :=
  if 0 ≤ x then round_magnitude x else -round_magnitude (-x)

/-- Truncation toward zero, the value of the conversion `(int) f`. -/
def truncate (f : ℚ) : ℤ := if 0 ≤ f then ⌊f⌋ else ⌈f⌉

/-- The conversion `(int) f`; it is undefined when the truncated value does
not fit a 32-bit `int`. -/
def float_to_int (f : ℚ) : Option ℤ :=
  if -(2 ^ 31 : ℚ) - 1 < f ∧ f < 2 ^ 31 then some (truncate f) else none

/-- The clamp `std::max(0, std::min(255, n))` converted to `uint8_t`. -/
def clamp_byte (n : ℤ) : Byte := to_byte (max 0 (min 255 n)).toNat

/-- The lambda `cl` (lines 199-201). -/
def cl (f : ℚ) : Option Byte := (float_to_int f).map clamp_byte

/-- The `float` value `Y - 16.f` (and `U - 128.f`, `V - 128.f`): the sample is
converted to `float` and the literal is subtracted. -/
def float_offset (rnd : ℚ → ℚ) (sample : Byte) (offset : ℚ) : ℚ :=
  rnd (rnd (sample.val : ℚ) - rnd offset)

/-- The `float` value `1.164f * (Y - 16.f) + 1.596f * (V - 128.f)` (line 202). -/
def red_value (rnd : ℚ → ℚ) (Y V : Byte) : ℚ :=
  rnd (rnd (rnd (1164 / 1000) * float_offset rnd Y 16) +
    rnd (rnd (1596 / 1000) * float_offset rnd V 128))

/-- The `float` value
`1.164f * (Y - 16.f) - 0.391f * (U - 128.f) - 0.813f * (V - 128.f)`
(lines 203-204). -/
def green_value (rnd : ℚ → ℚ) (Y U V : Byte) : ℚ :=
  rnd (rnd (rnd (rnd (1164 / 1000) * float_offset rnd Y 16) -
      rnd (rnd (391 / 1000) * float_offset rnd U 128)) -
    rnd (rnd (813 / 1000) * float_offset rnd V 128))

/-- The `float` value `1.164f * (Y - 16.f) + 2.017f * (U - 128.f)` (line 205). -/
def blue_value (rnd : ℚ → ℚ) (Y U : Byte) : ℚ :=
  rnd (rnd (rnd (1164 / 1000) * float_offset rnd Y 16) +
    rnd (rnd (2017 / 1000) * float_offset rnd U 128))

/-- The channel `R` (line 202). -/
def red_channel (rnd : ℚ → ℚ) (Y V : Byte) : Option Byte := cl (red_value rnd Y V)

/-- The channel `G` (lines 203-204). -/
def green_channel (rnd : ℚ → ℚ) (Y U V : Byte) : Option Byte :=
  cl (green_value rnd Y U V)

/-- The channel `B` (line 205). -/
def blue_channel (rnd : ℚ → ℚ) (Y U : Byte) : Option Byte := cl (blue_value rnd Y U)

/-- The word `R | (G << 8) | (B << 16) | (0xff << 24)` (line 207). -/
def pack_rgba (R G B : Byte) : Nat :=
  R.val ||| (G.val <<< 8) ||| (B.val <<< 16) ||| (0xff <<< 24)

/-- The pixel the conversion stores for the samples `Y`, `U`, `V` (lines
192-207). The result `none` stands for an undefined `(int) f`. -/
def yuv_to_rgba (rnd : ℚ → ℚ) (Y U V : Byte) : Option Nat :=
  match red_channel rnd Y V, green_channel rnd Y U V, blue_channel rnd Y U with
  | some R, some G, some B => some (pack_rgba R G B)
  | _, _, _ => none

/-- The red channel as the claim words it: the formula
`1.164(Y-16) + 1.596(V-128)` in exact arithmetic, truncated to an integer and
clamped into `[0, 255]`. -/
def exact_red (Y V : Byte) : ℤ :=
  max 0 (min 255 (truncate
    (1164 / 1000 * ((Y.val : ℚ) - 16) + 1596 / 1000 * ((V.val : ℚ) - 128))))

/-! ## Decimal digits -/

theorem toDigitsCore_length (f : Nat) : ∀ (n : Nat) (ds : List Char), n < f →
    (Nat.toDigitsCore 10 f n ds).length = ds.length + Nat.log 10 n + 1 := by
  induction f with
  | zero => intro n ds h; omega
  | succ f ih =>
    intro n ds h
    simp only [Nat.toDigitsCore]
    by_cases h0 : n / 10 = 0
    · have hn : n < 10 := by omega
      simp [h0, Nat.log_of_lt hn]
    · have hn : 10 ≤ n := by omega
      rw [if_neg h0, ih (n / 10) _ (by omega)]
      rw [Nat.log_of_one_lt_of_le (by norm_num) hn]
      simp
      omega

theorem to_string_length (n : Nat) : (to_string n).length = Nat.log 10 n + 1 := by
  unfold to_string Nat.toDigits
  rw [toDigitsCore_length (n + 1) n [] (by omega)]
  simp

theorem to_string_length_mono {k n : Nat} (h : k ≤ n) :
    (to_string k).length ≤ (to_string n).length := by
  rw [to_string_length, to_string_length]
  have := Nat.log_mono_right (b := 10) h
  omega

theorem to_string_length_le_ten {n : Nat} (h : n < 2 ^ 32) :
    (to_string n).length ≤ 10 := by
  rw [to_string_length]
  rcases Nat.eq_zero_or_pos n with h0 | h0
  · subst h0; simp
  · have h1 : Nat.log 10 n < 10 :=
      Nat.log_lt_of_lt_pow (by omega) (lt_trans h (by norm_num))
    omega

theorem frame_segment_eq {total k : Nat} (ht : total < 2 ^ 32)
    (hk : (to_string k).length ≤ (to_string total).length) :
    frame_segment total k = some
      (List.replicate ((to_string total).length - (to_string k).length) '0'
        ++ to_string k) := by
  have h10 := to_string_length_le_ten ht
  have hpad : frame_padding total k =
      (to_string total).length - (to_string k).length := by
    unfold frame_padding size_t
    omega
  unfold frame_segment string_fill
  rw [hpad, if_neg (by unfold string_max_size; omega)]
  rfl

/-! ## Claim C1 -/

/-- C1, as stated, fails: with `total_frames = 100` the segment of frame 5 is
`"005"`, three characters, while `total_frames - 1 = 99` has two digits. -/
theorem C1_counterexample :
    frame_segment 100 5 = some ['0', '0', '5'] ∧
    (to_string (100 - 1)).length = 2 ∧
    ¬ (['0', '0', '5'].length = (to_string (100 - 1)).length) := by
  decide

/-- C1, amended: for every `total_frames` and every frame index
`k < total_frames`, the numeric segment that `FrameExporter::encode_frame`
inserts is the decimal form of `k` left-padded with `'0'` to exactly as many
characters as `total_frames` itself has decimal digits. -/
theorem C1_segment_padded_to_total_width (total k : Nat) (ht : total < 2 ^ 32)
    (hk : k < total) :
    ∃ seg, frame_segment total k = some seg ∧
      seg.length = (to_string total).length ∧
      seg = List.replicate (seg.length - (to_string k).length) '0' ++ to_string k := by
  have hle := to_string_length_mono (Nat.le_of_lt hk)
  refine ⟨_, frame_segment_eq ht hle, ?_, ?_⟩
  · simp only [List.length_append, List.length_replicate]
    omega
  · simp only [List.length_append, List.length_replicate]
    congr 2
    omega

/-- C1, amended, at `total_frames = 120`, `k = 5`: the segment is `"005"`. -/
theorem C1_segment_padded_to_total_width_witness :
    ∃ seg, frame_segment 120 5 = some seg ∧
      seg.length = (to_string 120).length ∧
      seg = List.replicate (seg.length - (to_string 5).length) '0' ++ to_string 5 :=
  C1_segment_padded_to_total_width 120 5 (by decide) (by decide)

/-! ## Claim C10 -/

theorem last_index_of_none {s : List Char} {c : Char} (h : c ∉ s) :
    last_index_of s c = none := by
  induction s with
  | nil => rfl
  | cons x xs ih =>
    simp only [List.mem_cons, not_or] at h
    simp only [last_index_of, ih h.2]
    rw [if_neg (fun e => h.1 e.symm)]

theorem last_index_of_split (pre rest : List Char) (c : Char) (h : c ∉ rest) :
    last_index_of (pre ++ c :: rest) c = some pre.length := by
  induction pre with
  | nil => simp [last_index_of, last_index_of_none h]
  | cons x xs ih => simp [last_index_of, ih]

theorem split_at_last {path : List Char} {c : Char} (h : c ∈ path) :
    ∃ pre rest, path = pre ++ c :: rest ∧ c ∉ rest := by
  obtain ⟨front, back, hsplit, hnot⟩ :=
    List.eq_append_cons_of_mem (List.mem_reverse.mpr h)
  refine ⟨back.reverse, front.reverse, ?_, by simpa using hnot⟩
  have h1 := congrArg List.reverse hsplit
  simpa using h1

/-- C10: every path containing a `'.'` splits at its last `'.'` as
`pre ++ '.' :: rest`, and for every frame index `k` whose decimal form is no
longer than that of the total frame count (every `k` below the total is one),
`FrameExporter::encode_frame` saves frame `k` under `pre`, then `'_'`, then `k`
zero-padded to the decimal width of the total frame count, then `'.' :: rest`,
and leaves the frame counter at `k + 1`; a fresh exporter starts at 0. -/
theorem C10_encode_frame_path (path : List Char) (width height total k : Nat)
    (data : List Byte) (hdot : '.' ∈ path)
    (hlen : path.length ≤ string_max_size)
    (ht : total < 2 ^ 32) (hk32 : k + 1 < 2 ^ 32)
    (hk : (to_string k).length ≤ (to_string total).length) :
    (FrameExporter.create path width height total)._frame = 0 ∧
    ∃ pre rest, path = pre ++ '.' :: rest ∧ '.' ∉ rest ∧
      FrameExporter.encode_frame ⟨path, width, height, total, k⟩ data =
        some (⟨pre ++ '_' ::
                (List.replicate ((to_string total).length - (to_string k).length) '0'
                  ++ to_string k) ++ '.' :: rest, width, height, data⟩,
              ⟨path, width, height, total, k + 1⟩) := by
  refine ⟨rfl, ?_⟩
  obtain ⟨pre, rest, hpath, hrest⟩ := split_at_last hdot
  refine ⟨pre, rest, hpath, hrest, ?_⟩
  subst hpath
  have hseg := frame_segment_eq ht hk
  have hidx : find_last_of (pre ++ '.' :: rest) '.' = pre.length := by
    simp [find_last_of, last_index_of_split pre rest '.' hrest]
  have hhead : substr (pre ++ '.' :: rest) 0 pre.length = some pre := by
    simp [substr]
  have htail : substr (pre ++ '.' :: rest) pre.length npos = some ('.' :: rest) := by
    have h1 : ('.' :: rest).length ≤ npos := by
      simp only [List.length_append, List.length_cons] at hlen ⊢
      unfold string_max_size at hlen
      unfold npos
      omega
    simp only [substr, List.length_append, List.length_cons, List.drop_left]
    rw [if_neg (by omega), List.take_of_length_le h1]
  have hu : u32 (k + 1) = k + 1 := by
    unfold u32
    exact Nat.mod_eq_of_lt (by omega)
  simp only [FrameExporter.encode_frame, hidx, hhead, htail, hseg, hu]

/-- C10 at the path `"out.png"`, 120 frames in total, frame 42: the file is
saved as `"out_042.png"`. -/
theorem C10_encode_frame_path_witness :
    FrameExporter.encode_frame ⟨['o', 'u', 't', '.', 'p', 'n', 'g'], 4, 2, 120, 42⟩ [] =
        some (⟨['o', 'u', 't', '_', '0', '4', '2', '.', 'p', 'n', 'g'], 4, 2, []⟩,
          ⟨['o', 'u', 't', '.', 'p', 'n', 'g'], 4, 2, 120, 43⟩) ∧
    (FrameExporter.create ['o', 'u', 't', '.', 'p', 'n', 'g'] 4 2 120)._frame = 0 ∧
    ∃ pre rest, ['o', 'u', 't', '.', 'p', 'n', 'g'] = pre ++ '.' :: rest ∧ '.' ∉ rest ∧
      FrameExporter.encode_frame ⟨['o', 'u', 't', '.', 'p', 'n', 'g'], 4, 2, 120, 42⟩ [] =
        some (⟨pre ++ '_' ::
                (List.replicate ((to_string 120).length - (to_string 42).length) '0'
                  ++ to_string 42) ++ '.' :: rest, 4, 2, []⟩,
              ⟨['o', 'u', 't', '.', 'p', 'n', 'g'], 4, 2, 120, 43⟩) :=
  ⟨by decide,
    C10_encode_frame_path ['o', 'u', 't', '.', 'p', 'n', 'g'] 4 2 120 42 []
      (by decide) (by decide) (by decide) (by decide) (by decide)⟩

/-! ## Claims C2 and C3: `load_animation_webm` -/

theorem decode_frames_ok (rgba : vpx_image → List Nat) (frames : List CompressedFrame) :
    ∀ result : List Image, frames.all (fun f => !f.decode_error) = true →
      decode_frames rgba frames result = some
        (result ++ ((frames.map (fun f => f.pictures)).flatten).map (picture_image rgba)) := by
  induction frames with
  | nil => intro result _; simp [decode_frames]
  | cons f fs ih =>
    intro result h
    simp only [List.all_cons, Bool.and_eq_true, Bool.not_eq_true'] at h
    simp only [decode_frames, h.1, Bool.false_eq_true, if_false]
    rw [ih _ h.2]
    simp

theorem decode_blocks_ok (rgba : vpx_image → List Nat) (number : Nat)
    (blocks : List Block) :
    ∀ result : List Image,
      blocks.all (fun b => !b.next_error &&
        (b.track_number != number || b.frames.all (fun f => !f.decode_error))) = true →
      decode_blocks rgba number blocks result = some
        (result ++ (((blocks.filter (fun b => b.track_number = number)).map
          (fun b => (b.frames.map (fun f => f.pictures)).flatten)).flatten).map
            (picture_image rgba)) := by
  induction blocks with
  | nil => intro result _; simp [decode_blocks]
  | cons b bs ih =>
    intro result h
    simp only [List.all_cons, Bool.and_eq_true, Bool.not_eq_true', Bool.or_eq_true,
      bne_iff_ne, ne_eq] at h
    obtain ⟨⟨hnext, hdec⟩, hrest⟩ := h
    have hrest1 : bs.all (fun b => !b.next_error &&
        (b.track_number != number || b.frames.all (fun f => !f.decode_error))) = true := by
      simpa only [List.all_eq_true, Bool.and_eq_true, Bool.not_eq_true', Bool.or_eq_true,
        bne_iff_ne, ne_eq] using hrest
    by_cases hn : b.track_number = number
    · have hd : b.frames.all (fun f => !f.decode_error) = true := by
        rcases hdec with h1 | h1
        · exact absurd hn h1
        · exact h1
      simp only [decode_blocks, hn, if_true, decode_frames_ok rgba b.frames result hd,
        hnext, Bool.false_eq_true, if_false]
      rw [ih _ hrest1]
      simp [List.filter_cons, hn]
    · simp only [decode_blocks, hn, if_false, hnext, Bool.false_eq_true]
      rw [ih _ hrest1]
      simp [List.filter_cons, hn]

theorem decode_clusters_ok (rgba : vpx_image → List Nat) (number : Nat)
    (clusters : List Cluster) :
    ∀ result : List Image,
      clusters.all (fun c => !c.first_error &&
        c.blocks.all (fun b => !b.next_error &&
          (b.track_number != number || b.frames.all (fun f => !f.decode_error)))) = true →
      decode_clusters rgba number clusters result = some
        (result ++ (decoded_pictures number clusters).map (picture_image rgba)) := by
  induction clusters with
  | nil => intro result _; simp [decode_clusters, decoded_pictures]
  | cons c cs ih =>
    intro result h
    rw [List.all_cons, Bool.and_eq_true, Bool.and_eq_true] at h
    obtain ⟨⟨hfirst, hblocks⟩, hrest⟩ := h
    simp only [Bool.not_eq_true'] at hfirst
    simp only [decode_clusters, hfirst, Bool.false_eq_true, if_false,
      decode_blocks_ok rgba number c.blocks result hblocks]
    rw [ih _ hrest]
    simp [decoded_pictures]

/-- C2, as stated, fails: in a run where every step succeeds and one picture
has been decoded, an error from `vpx_codec_destroy` makes the function return
the empty sequence instead of the one decoded image. -/
theorem C2_counterexample :
    find_video_track failed_teardown_run.tracks = some (some vp8_track) ∧
    steps_succeed vp8_track.number failed_teardown_run = true ∧
    failed_teardown_run.destroy_error = true ∧
    decoded_pictures vp8_track.number failed_teardown_run.clusters = [sample_picture] ∧
    load_animation_webm (fun _ => [0]) failed_teardown_run = some [] ∧
    load_animation_webm (fun _ => [0]) failed_teardown_run ≠
      some ((decoded_pictures vp8_track.number failed_teardown_run.clusters).map
        (picture_image (fun _ => [0]))) := by
  decide

/-- C2, amended: in every run in which container parsing, track selection,
decoder initialisation and every decode step succeed, `load_animation_webm`
returns the images of all decoded pictures in order when `vpx_codec_destroy`
succeeds, and the empty sequence when `vpx_codec_destroy` reports an error. -/
theorem C2_teardown_decides_result (rgba : vpx_image → List Nat) (file : WebmFile)
    (video_track : Track)
    (hsel : find_video_track file.tracks = some (some video_track))
    (hok : steps_succeed video_track.number file = true) :
    load_animation_webm rgba file =
      some (if file.destroy_error then []
        else (decoded_pictures video_track.number file.clusters).map
          (picture_image rgba)) := by
  unfold steps_succeed at hok
  simp only [Bool.and_eq_true, Bool.not_eq_true'] at hok
  obtain ⟨⟨⟨⟨hopen, hcreate⟩, hload⟩, hinit⟩, hclusters⟩ := hok
  simp only [load_animation_webm, hopen, hcreate, hload, hinit, hsel,
    Bool.false_eq_true, if_false]
  have h := decode_clusters_ok rgba video_track.number file.clusters []
    (by simpa only [List.all_eq_true, Bool.and_eq_true, Bool.not_eq_true'] using hclusters)
  rw [h]
  cases file.destroy_error <;> simp

/-- C2, amended, on a run with one decoded picture and a successful teardown. -/
theorem C2_teardown_decides_result_witness :
    load_animation_webm (fun _ => [0]) clean_run =
      some (if clean_run.destroy_error then []
        else (decoded_pictures vp8_track.number clean_run.clusters).map
          (picture_image (fun _ => [0]))) :=
  C2_teardown_decides_result (fun _ => [0]) clean_run vp8_track (by decide) (by decide)

/-- C3 fails on the code: with an audio track listed before the VP8 video
track, the selection loop stops at the audio track, because the condition
tests `GetType()` for being non-zero and joins the codec test with `||`. -/
theorem C3_selects_audio_track :
    find_video_track [some vorbis_track, some vp8_track] = some (some vorbis_track) ∧
    vorbis_track.type ≠ kVideo ∧ vorbis_track.codec_name ≠ some VP8 ∧
    vp8_track.type = kVideo ∧ vp8_track.codec_name = some VP8 := by
  decide

/-! ## Loops -/

/-- Hoare rule for `for_loop`. -/
theorem for_loop_inv {σ : Type} (P : Nat → σ → Prop) (body : Nat → σ → Option σ)
    (n : Nat) (s : σ) (h0 : P 0 s)
    (hstep : ∀ i, i < n → ∀ t, P i t → ∃ t1, body i t = some t1 ∧ P (i + 1) t1) :
    ∃ t, for_loop n body s = some t ∧ P n t := by
  induction n with
  | zero => exact ⟨s, rfl, h0⟩
  | succ n ih =>
    obtain ⟨t, ht, hP⟩ := ih (fun i hi => hstep i (Nat.lt_succ_of_lt hi))
    obtain ⟨t1, ht1, hP1⟩ := hstep n (Nat.lt_succ_self n) t hP
    exact ⟨t1, by simp [for_loop, ht, ht1], hP1⟩

theorem FillInv_step {σ α : Type} (proj : σ → List α) (Good : σ → Prop)
    (cell : Nat → Nat → Option (Nat × α)) (body : Nat → Nat → σ → Option σ)
    (h w L : Nat) (s : σ)
    (hbody : ∀ y, y < h → ∀ x, x < w → ∀ t, Good t →
      ∃ t1, body y x t = some t1 ∧ Good t1 ∧ proj t1 = apply_cell (cell y x) (proj t))
    (hbound : ∀ y, y < h → ∀ x, x < w → ∀ i v, cell y x = some (i, v) → i < L)
    (hlen : ∀ t, Good t → (proj t).length = L)
    (Done : Nat → Nat → Prop) (y x : Nat) (hy : y < h) (hx : x < w) (t : σ)
    (hinv : FillInv proj Good cell h w s Done t) :
    ∃ t1, body y x t = some t1 ∧
      FillInv proj Good cell h w s (fun y1 x1 => Done y1 x1 ∨ (y1 = y ∧ x1 = x)) t1 := by
  obtain ⟨hg, hframe, hval⟩ := hinv
  obtain ⟨t1, hb, hg1, hproj⟩ := hbody y hy x hx t hg
  refine ⟨t1, hb, hg1, ?_, ?_⟩
  · intro i hi
    rw [hproj]
    cases hc : cell y x with
    | none => exact hframe i hi
    | some p =>
      obtain ⟨i0, v0⟩ := p
      have hne : i0 ≠ i := by
        intro e
        subst e
        exact hi y hy x hx v0 hc
      simp only [apply_cell]
      rw [List.getElem?_set_ne hne]
      exact hframe i hi
  · intro hcons y1 hy1 x1 hx1 hdone i v hcell
    rw [hproj]
    cases hc : cell y x with
    | none =>
      simp only [apply_cell]
      rcases hdone with hd | ⟨e1, e2⟩
      · exact hval hcons y1 hy1 x1 hx1 hd i v hcell
      · subst e1; subst e2
        rw [hc] at hcell
        exact absurd hcell (by simp)
    | some p =>
      obtain ⟨i0, v0⟩ := p
      simp only [apply_cell]
      by_cases hi : i0 = i
      · subst hi
        have hv : v0 = v := hcons y hy x hx y1 hy1 x1 hx1 i0 v0 v hc hcell
        subst hv
        have hlt : i0 < (proj t).length := by
          rw [hlen t hg]
          exact hbound y hy x hx i0 v0 hc
        rw [List.getElem?_set_self hlt]
      · rw [List.getElem?_set_ne hi]
        rcases hdone with hd | ⟨e1, e2⟩
        · exact hval hcons y1 hy1 x1 hx1 hd i v hcell
        · subst e1; subst e2
          rw [hc] at hcell
          simp only [Option.some.injEq, Prod.mk.injEq] at hcell
          exact absurd hcell.1 hi

theorem FillInv_mono {σ α : Type} (proj : σ → List α) (Good : σ → Prop)
    (cell : Nat → Nat → Option (Nat × α)) (h w : Nat) (s : σ)
    (Done Done1 : Nat → Nat → Prop) (t : σ)
    (hsub : ∀ y x, Done1 y x → Done y x)
    (hinv : FillInv proj Good cell h w s Done t) :
    FillInv proj Good cell h w s Done1 t :=
  ⟨hinv.1, hinv.2.1, fun hcons y hy x hx hd i v hc =>
    hinv.2.2 hcons y hy x hx (hsub y x hd) i v hc⟩

/-- A two-level loop whose body performs at most one assignment per cell, the
assigned index and value depending on the cell only: the loop succeeds, every
index no cell assigns keeps its value, and (when cells assigning the same
index agree on the value) every assigned index holds the value of its cell. -/
theorem fill_loop_spec {σ α : Type} (proj : σ → List α) (Good : σ → Prop)
    (cell : Nat → Nat → Option (Nat × α)) (body : Nat → Nat → σ → Option σ)
    (h w L : Nat) (s : σ)
    (hbody : ∀ y, y < h → ∀ x, x < w → ∀ t, Good t →
      ∃ t1, body y x t = some t1 ∧ Good t1 ∧ proj t1 = apply_cell (cell y x) (proj t))
    (hbound : ∀ y, y < h → ∀ x, x < w → ∀ i v, cell y x = some (i, v) → i < L)
    (hlen : ∀ t, Good t → (proj t).length = L)
    (hs : Good s) :
    ∃ t, for_loop h (fun y t => for_loop w (fun x t => body y x t) t) s = some t ∧
      FillInv proj Good cell h w s (fun _ _ => True) t := by
  have houter := for_loop_inv
    (fun y t => FillInv proj Good cell h w s (fun y1 _ => y1 < y) t)
    (fun y t => for_loop w (fun x t => body y x t) t) h s
    ⟨hs, fun _ _ => rfl, fun _ y _ x _ hd => absurd hd (Nat.not_lt_zero y)⟩
    (by
      intro y hy t hinv
      have hinner := for_loop_inv
        (fun x t => FillInv proj Good cell h w s
          (fun y1 x1 => y1 < y ∨ (y1 = y ∧ x1 < x)) t)
        (fun x t => body y x t) w t
        (FillInv_mono proj Good cell h w s _ _ t
          (by
            intro y1 x1 hd
            rcases hd with hd | ⟨_, hd⟩
            · exact hd
            · exact absurd hd (Nat.not_lt_zero x1)) hinv)
        (by
          intro x hx t2 hinv2
          obtain ⟨t3, hb, hinv3⟩ := FillInv_step proj Good cell body h w L s hbody hbound
            hlen _ y x hy hx t2 hinv2
          refine ⟨t3, hb, FillInv_mono proj Good cell h w s _ _ t3 ?_ hinv3⟩
          intro y1 x1 hd
          rcases hd with hd | ⟨e, hd⟩
          · exact Or.inl (Or.inl hd)
          · rcases Nat.lt_succ_iff_lt_or_eq.mp hd with hd1 | hd1
            · exact Or.inl (Or.inr ⟨e, hd1⟩)
            · exact Or.inr ⟨e, hd1⟩)
      obtain ⟨t2, hl, hinv2⟩ := hinner
      refine ⟨t2, hl, ?_⟩
      obtain ⟨hg, hframe, hval⟩ := hinv2
      refine ⟨hg, hframe, ?_⟩
      intro hcons y1 hy1 x1 hx1 hd i v hc
      apply hval hcons y1 hy1 x1 hx1 _ i v hc
      rcases Nat.lt_succ_iff_lt_or_eq.mp hd with hd1 | hd1
      · exact Or.inl hd1
      · exact Or.inr ⟨hd1, hx1⟩)
  obtain ⟨t, hl, hinv⟩ := houter
  refine ⟨t, hl, ?_⟩
  obtain ⟨hg, hframe, hval⟩ := hinv
  exact ⟨hg, hframe, fun hcons y hy x hx _ i v hc => hval hcons y hy x hx hy i v hc⟩


/-! ## GIF compositing -/

theorem store_eq {α : Type} {a : List α} {i : Nat} (v : α) (h : i < a.length) :
    store a i v = some (a.set i v) := by
  simp [store, h]

theorem fill_background_eq (gif : GifFileType) (pixels : List Nat)
    (h : pixels.length = gif.SWidth * gif.SHeight) :
    fill_background gif pixels =
      some (List.replicate (gif.SWidth * gif.SHeight) gif.SBackGroundColor) := by
  obtain ⟨t, ht, hlen, hval⟩ := for_loop_inv
    (fun k px => px.length = gif.SWidth * gif.SHeight ∧
      ∀ i, i < k → px[i]? = some gif.SBackGroundColor)
    (fun k px => store px k gif.SBackGroundColor) (gif.SWidth * gif.SHeight) pixels
    ⟨h, fun i hi => absurd hi (Nat.not_lt_zero i)⟩
    (by
      intro k hk px hinv
      obtain ⟨hl, hv⟩ := hinv
      refine ⟨px.set k gif.SBackGroundColor, store_eq _ (by omega), by simpa using hl, ?_⟩
      intro i hi
      by_cases e : k = i
      · subst e
        rw [List.getElem?_set_self (by omega)]
      · rw [List.getElem?_set_ne e]
        exact hv i (by omega))
  unfold fill_background
  rw [ht]
  congr 1
  apply List.ext_getElem?
  intro i
  by_cases hi : i < gif.SWidth * gif.SHeight
  · rw [hval i hi, List.getElem?_replicate]
    simp [hi]
  · rw [List.getElem?_eq_none (by omega), List.getElem?_eq_none (by simp; omega)]

/-- One extension block: the step succeeds, keeps the canvas size, clears the
canvas when the block is a graphics-control block with disposal method 2, and
keeps a cleared canvas cleared. -/
theorem extension_step_spec (gif : GifFileType) (block : ExtensionBlock)
    (st : FrameControl) (hlen : st.pixels.length = gif.SWidth * gif.SHeight)
    (hbytes : block.Function = GRAPHICS_EXT_FUNC_CODE → 4 ≤ block.Bytes.length) :
    ∃ st1, extension_step gif block st = some st1 ∧
      st1.pixels.length = gif.SWidth * gif.SHeight ∧
      ((st.pixels = List.replicate (gif.SWidth * gif.SHeight) gif.SBackGroundColor ∨
        (block.Function = GRAPHICS_EXT_FUNC_CODE ∧
          block.Bytes[0]?.map dispose_of = some 2)) →
        st1.pixels = List.replicate (gif.SWidth * gif.SHeight) gif.SBackGroundColor) := by
  unfold extension_step
  by_cases hf : block.Function = GRAPHICS_EXT_FUNC_CODE
  · have h4 := hbytes hf
    rw [if_neg (by simpa using hf)]
    have e0 : block.Bytes[0]? = some (block.Bytes[0]) := List.getElem?_eq_getElem (by omega)
    have e1 : block.Bytes[1]? = some (block.Bytes[1]) := List.getElem?_eq_getElem (by omega)
    have e2 : block.Bytes[2]? = some (block.Bytes[2]) := List.getElem?_eq_getElem (by omega)
    have e3 : block.Bytes[3]? = some (block.Bytes[3]) := List.getElem?_eq_getElem (by omega)
    rw [e0, e1, e2, e3]
    simp only []
    by_cases hd : dispose_of block.Bytes[0] = 2
    · rw [if_pos hd, fill_background_eq gif st.pixels hlen]
      refine ⟨_, rfl, by simp, fun _ => rfl⟩
    · rw [if_neg hd]
      refine ⟨_, rfl, hlen, ?_⟩
      intro h
      rcases h with h | ⟨_, h⟩
      · exact h
      · simp [hd] at h
  · rw [if_pos (by simpa using hf)]
    refine ⟨st, rfl, hlen, ?_⟩
    intro h
    rcases h with h | ⟨h, _⟩
    · exact h
    · exact absurd h hf

theorem scan_blocks_spec (gif : GifFileType) (blocks : List ExtensionBlock) :
    ∀ st : FrameControl, st.pixels.length = gif.SWidth * gif.SHeight →
      (∀ block ∈ blocks, block.Function = GRAPHICS_EXT_FUNC_CODE → 4 ≤ block.Bytes.length) →
      ∃ ctl, blocks.foldlM (fun st block => extension_step gif block st) st = some ctl ∧
        ctl.pixels.length = gif.SWidth * gif.SHeight ∧
        ((st.pixels = List.replicate (gif.SWidth * gif.SHeight) gif.SBackGroundColor ∨
          ∃ block ∈ blocks, block.Function = GRAPHICS_EXT_FUNC_CODE ∧
            block.Bytes[0]?.map dispose_of = some 2) →
          ctl.pixels = List.replicate (gif.SWidth * gif.SHeight) gif.SBackGroundColor) := by
  induction blocks with
  | nil =>
    intro st hlen _
    refine ⟨st, rfl, hlen, ?_⟩
    intro h
    rcases h with h | ⟨b, hb, _⟩
    · exact h
    · simp at hb
  | cons b bs ih =>
    intro st hlen hbytes
    obtain ⟨st1, hs, hlen1, hclear1⟩ := extension_step_spec gif b st hlen
      (hbytes b (List.mem_cons_self b bs))
    obtain ⟨ctl, hc, hlenc, hclear⟩ := ih st1 hlen1
      (fun block hb => hbytes block (List.mem_cons_of_mem b hb))
    refine ⟨ctl, ?_, hlenc, ?_⟩
    · simp only [List.foldlM_cons, hs, Option.bind_eq_bind, Option.some_bind]
      exact hc
    · intro h
      apply hclear
      rcases h with h | ⟨block, hb, hblock⟩
      · exact Or.inl (hclear1 (Or.inl h))
      · rcases List.mem_cons.mp hb with e | hb1
        · subst e
          exact Or.inl (hclear1 (Or.inr hblock))
        · exact Or.inr ⟨block, hb1, hblock⟩

/-- Within its preconditions `put_pixel` performs the assignment `gif_cell`
describes. -/
theorem put_pixel_spec (gif : GifFileType) (frame : SavedImage) (transparency : Bool)
    (tb : Byte) (hdata : frame_data_ok gif frame) (hbounds : writes_in_bounds gif frame)
    (y : Nat) (hy : y < min gif.SHeight frame.ImageDesc.Height)
    (x : Nat) (hx : x < min gif.SWidth frame.ImageDesc.Width)
    (t : List Nat) (ht : t.length = gif.SWidth * gif.SHeight) :
    ∃ t1, put_pixel gif frame transparency tb y x t = some t1 ∧
      t1.length = gif.SWidth * gif.SHeight ∧
      t1 = apply_cell (gif_cell gif frame transparency tb y x) t := by
  obtain ⟨hraster, hcolors, _⟩ := hdata
  have hidx : x + y * frame.ImageDesc.Width < frame.RasterBits.length := by
    have h1 : x < frame.ImageDesc.Width := lt_of_lt_of_le hx (min_le_right _ _)
    have h2 : y < frame.ImageDesc.Height := lt_of_lt_of_le hy (min_le_right _ _)
    have h3 : (y + 1) * frame.ImageDesc.Width ≤
        frame.ImageDesc.Height * frame.ImageDesc.Width :=
      Nat.mul_le_mul_right _ h2
    have h4 : frame.ImageDesc.Height * frame.ImageDesc.Width =
        frame.ImageDesc.Width * frame.ImageDesc.Height := Nat.mul_comm _ _
    have h5 : (y + 1) * frame.ImageDesc.Width =
        y * frame.ImageDesc.Width + frame.ImageDesc.Width := by ring
    omega
  have hbyte : frame.RasterBits[x + y * frame.ImageDesc.Width]? =
      some (frame.RasterBits[x + y * frame.ImageDesc.Width]) :=
    List.getElem?_eq_getElem hidx
  have hmem : frame.RasterBits[x + y * frame.ImageDesc.Width] ∈ frame.RasterBits :=
    List.getElem_mem hidx
  unfold put_pixel gif_cell
  rw [hbyte]
  simp only []
  by_cases hskip :
      (transparency && frame.RasterBits[x + y * frame.ImageDesc.Width] == tb) = true
  · rw [if_pos hskip, if_pos hskip]
    exact ⟨t, rfl, ht, rfl⟩
  · rw [if_neg hskip, if_neg hskip]
    have hc := hcolors _ hmem
    rw [Option.isSome_iff_exists] at hc
    obtain ⟨c, hc⟩ := hc
    rw [hc]
    unfold lookup_color at hc
    cases hmap : color_map gif frame with
    | none => simp [hmap] at hc
    | some map =>
      rw [hmap] at hc
      simp only [Option.some_bind] at hc
      simp only [hc, Option.map_some']
      have hb := hbounds y hy x hx
      rw [store_eq _ (by omega)]
      exact ⟨_, rfl, by simpa using ht, rfl⟩

/-- The compositing loops of a frame: they succeed, keep the canvas size, and
every index no visited cell assigns keeps its value. -/
theorem composite_spec (gif : GifFileType) (frame : SavedImage) (transparency : Bool)
    (tb : Byte) (hdata : frame_data_ok gif frame) (hbounds : writes_in_bounds gif frame)
    (pixels : List Nat) (hlen : pixels.length = gif.SWidth * gif.SHeight) :
    ∃ out, composite gif frame transparency tb pixels = some out ∧
      out.length = gif.SWidth * gif.SHeight ∧
      ∀ i, (∀ y, y < min gif.SHeight frame.ImageDesc.Height →
          ∀ x, x < min gif.SWidth frame.ImageDesc.Width →
            ∀ v, gif_cell gif frame transparency tb y x ≠ some (i, v)) →
        out[i]? = pixels[i]? := by
  obtain ⟨out, hout, hgood, hframe, _⟩ := fill_loop_spec (fun t : List Nat => t)
    (fun t => t.length = gif.SWidth * gif.SHeight)
    (gif_cell gif frame transparency tb)
    (fun y x t => put_pixel gif frame transparency tb y x t)
    (min gif.SHeight frame.ImageDesc.Height) (min gif.SWidth frame.ImageDesc.Width)
    (gif.SWidth * gif.SHeight) pixels
    (fun y hy x hx t ht =>
      put_pixel_spec gif frame transparency tb hdata hbounds y hy x hx t ht)
    (by
      intro y hy x hx i v hc
      unfold gif_cell at hc
      cases hb : frame.RasterBits[x + y * frame.ImageDesc.Width]? with
      | none => simp [hb] at hc
      | some byte =>
        simp only [hb] at hc
        split at hc
        · simp at hc
        · simp only [Option.map_eq_some'] at hc
          obtain ⟨c, _, hc⟩ := hc
          simp only [Prod.mk.injEq] at hc
          rw [← hc.1]
          exact hbounds y hy x hx)
    (fun t ht => ht) hlen
  exact ⟨out, hout, hgood, hframe⟩


/-- Partial-correctness rule for `for_loop`: a property kept by every
iteration that succeeds holds after a loop that succeeds. -/
theorem for_loop_post {σ : Type} (P : σ → Prop) (body : Nat → σ → Option σ)
    (n : Nat) (s : σ) (h0 : P s)
    (hstep : ∀ i, i < n → ∀ u u1, P u → body i u = some u1 → P u1) :
    ∀ t, for_loop n body s = some t → P t := by
  induction n with
  | zero =>
    intro t ht
    simp only [for_loop, Option.some.injEq] at ht
    exact ht ▸ h0
  | succ n ih =>
    intro t ht
    simp only [for_loop, Option.bind_eq_some] at ht
    obtain ⟨u, hu, hb⟩ := ht
    exact hstep n (Nat.lt_succ_self n) u t
      (ih (fun i hi => hstep i (Nat.lt_succ_of_lt hi)) u hu) hb

theorem store_some {α : Type} {a a1 : List α} {i : Nat} {v : α}
    (h : store a i v = some a1) : i < a.length ∧ a1 = a.set i v := by
  unfold store at h
  split at h
  · rename_i hi
    exact ⟨hi, (Option.some.inj h).symm⟩
  · simp at h

/-- Whenever `put_pixel` completes, it has performed the assignment
`gif_cell` describes. -/
theorem put_pixel_some (gif : GifFileType) (frame : SavedImage) (transparency : Bool)
    (tb : Byte) (y x : Nat) (t t1 : List Nat)
    (h : put_pixel gif frame transparency tb y x t = some t1) :
    t1.length = t.length ∧
      t1 = apply_cell (gif_cell gif frame transparency tb y x) t := by
  unfold put_pixel at h
  unfold gif_cell lookup_color
  cases hb : frame.RasterBits[x + y * frame.ImageDesc.Width]? with
  | none => simp [hb] at h
  | some byte =>
    simp only [hb] at h ⊢
    by_cases hskip : (transparency && byte == tb) = true
    · rw [if_pos hskip] at h ⊢
      cases h
      exact ⟨rfl, rfl⟩
    · rw [if_neg hskip] at h ⊢
      cases hm : color_map gif frame with
      | none => simp [hm] at h
      | some map =>
        simp only [hm] at h ⊢
        cases hc : map.Colors[byte.val]? with
        | none => simp [hc] at h
        | some c =>
          simp only [hc] at h
          obtain ⟨_, e⟩ := store_some h
          subst e
          simp [hc, apply_cell]

/-- Whenever the compositing loops complete, the canvas has kept its size and
every index that no visited cell assigns has kept its value. -/
theorem composite_some (gif : GifFileType) (frame : SavedImage) (transparency : Bool)
    (tb : Byte) (pixels out : List Nat)
    (h : composite gif frame transparency tb pixels = some out) :
    composite_keeps gif frame transparency tb pixels out := by
  refine for_loop_post (composite_keeps gif frame transparency tb pixels)
    (fun y px => for_loop (min gif.SWidth frame.ImageDesc.Width)
      (fun x px => put_pixel gif frame transparency tb y x px) px)
    (min gif.SHeight frame.ImageDesc.Height) pixels ⟨rfl, fun _ _ => rfl⟩ ?_ out h
  intro y hy u u1 hu hrow
  refine for_loop_post (composite_keeps gif frame transparency tb pixels)
    (fun x px => put_pixel gif frame transparency tb y x px)
    (min gif.SWidth frame.ImageDesc.Width) u hu ?_ u1 hrow
  intro x hx t t1 ht hput
  obtain ⟨hl, hcell⟩ := put_pixel_some gif frame transparency tb y x t t1 hput
  refine ⟨by rw [hl, ht.1], ?_⟩
  intro i hi
  rw [hcell]
  cases hc : gif_cell gif frame transparency tb y x with
  | none => exact ht.2 i hi
  | some p =>
    obtain ⟨i0, v0⟩ := p
    have hne : i0 ≠ i := by
      intro e
      subst e
      exact hi y hy x hx v0 hc
    simp only [apply_cell]
    rw [List.getElem?_set_ne hne]
    exact ht.2 i hi

/-- Whenever one extension block is processed to completion on a canvas of
the GIF, the canvas keeps its size, a graphics-control block of disposal
method 2 leaves it cleared, and a cleared canvas stays cleared. -/
theorem extension_step_some (gif : GifFileType) (block : ExtensionBlock)
    (st st1 : FrameControl) (hlen : st.pixels.length = gif.SWidth * gif.SHeight)
    (h : extension_step gif block st = some st1) :
    st1.pixels.length = gif.SWidth * gif.SHeight ∧
      ((st.pixels = List.replicate (gif.SWidth * gif.SHeight) gif.SBackGroundColor ∨
        (block.Function = GRAPHICS_EXT_FUNC_CODE ∧
          block.Bytes[0]?.map dispose_of = some 2)) →
        st1.pixels = List.replicate (gif.SWidth * gif.SHeight) gif.SBackGroundColor) := by
  unfold extension_step at h
  by_cases hf : block.Function = GRAPHICS_EXT_FUNC_CODE
  · rw [if_neg (by simpa using hf)] at h
    cases e0 : block.Bytes[0]? with
    | none => simp [e0] at h
    | some b0 =>
      cases e1 : block.Bytes[1]? with
      | none => simp [e0, e1] at h
      | some b1 =>
        cases e2 : block.Bytes[2]? with
        | none => simp [e0, e1, e2] at h
        | some b2 =>
          cases e3 : block.Bytes[3]? with
          | none => simp [e0, e1, e2, e3] at h
          | some b3 =>
            simp only [e0, e1, e2, e3] at h
            by_cases hd : dispose_of b0 = 2
            · rw [if_pos hd, fill_background_eq gif st.pixels hlen] at h
              simp only [Option.map_some', Option.some.injEq] at h
              subst h
              exact ⟨by simp, fun _ => rfl⟩
            · rw [if_neg hd] at h
              simp only [Option.some.injEq] at h
              subst h
              refine ⟨hlen, ?_⟩
              intro hh
              rcases hh with hh | ⟨_, hh⟩
              · exact hh
              · simp [hd] at hh
  · rw [if_pos (by simpa using hf)] at h
    cases h
    refine ⟨hlen, ?_⟩
    intro hh
    rcases hh with hh | ⟨hh, _⟩
    · exact hh
    · exact absurd hh hf

theorem scan_blocks_some (gif : GifFileType) (blocks : List ExtensionBlock) :
    ∀ st ctl : FrameControl, st.pixels.length = gif.SWidth * gif.SHeight →
      blocks.foldlM (fun st block => extension_step gif block st) st = some ctl →
      ctl.pixels.length = gif.SWidth * gif.SHeight ∧
        ((st.pixels = List.replicate (gif.SWidth * gif.SHeight) gif.SBackGroundColor ∨
          ∃ block ∈ blocks, block.Function = GRAPHICS_EXT_FUNC_CODE ∧
            block.Bytes[0]?.map dispose_of = some 2) →
          ctl.pixels = List.replicate (gif.SWidth * gif.SHeight) gif.SBackGroundColor) := by
  induction blocks with
  | nil =>
    intro st ctl hlen h
    simp only [List.foldlM_nil] at h
    cases h
    refine ⟨hlen, ?_⟩
    intro hh
    rcases hh with hh | ⟨b, hb, _⟩
    · exact hh
    · simp at hb
  | cons b bs ih =>
    intro st ctl hlen h
    simp only [List.foldlM_cons, Option.bind_eq_bind, Option.bind_eq_some] at h
    obtain ⟨st1, hs, hrest⟩ := h
    obtain ⟨hlen1, hclear1⟩ := extension_step_some gif b st st1 hlen hs
    obtain ⟨hlenc, hclear⟩ := ih st1 ctl hlen1 hrest
    refine ⟨hlenc, ?_⟩
    intro hh
    apply hclear
    rcases hh with hh | ⟨block, hb, hblock⟩
    · exact Or.inl (hclear1 (Or.inl hh))
    · rcases List.mem_cons.mp hb with e | hb1
      · subst e
        exact Or.inl (hclear1 (Or.inr hblock))
      · exact Or.inr ⟨block, hb1, hblock⟩

/-- A cell that assigns index `i` witnesses that the frame writes `i`. -/
theorem gif_cell_written (gif : GifFileType) (frame : SavedImage) (ctl : FrameControl)
    (y x i v : Nat) (hy : y < min gif.SHeight frame.ImageDesc.Height)
    (hx : x < min gif.SWidth frame.ImageDesc.Width)
    (hc : gif_cell gif frame ctl.transparency ctl.transparency_byte y x = some (i, v)) :
    written gif frame ctl i := by
  unfold gif_cell at hc
  cases hb : frame.RasterBits[x + y * frame.ImageDesc.Width]? with
  | none => simp [hb] at hc
  | some byte =>
    simp only [hb] at hc
    split at hc
    · simp at hc
    · rename_i hskip
      simp only [Option.map_eq_some'] at hc
      obtain ⟨c, _, hc⟩ := hc
      simp only [Prod.mk.injEq] at hc
      refine ⟨y, hy, x, hx, byte, hb, ?_, hc.1⟩
      intro hh
      apply hskip
      simp [hh.1, hh.2]

theorem index_inj {a b c d w : Nat} (ha : a < w) (hc : c < w)
    (h : a + b * w = c + d * w) : a = c ∧ b = d := by
  have hb : b = d := by
    rcases Nat.lt_trichotomy b d with hlt | heq | hgt
    · have : (b + 1) * w ≤ d * w := Nat.mul_le_mul_right _ hlt
      have h5 : (b + 1) * w = b * w + w := by ring
      omega
    · exact heq
    · have : (d + 1) * w ≤ b * w := Nat.mul_le_mul_right _ hgt
      have h5 : (d + 1) * w = d * w + w := by ring
      omega
  subst hb
  exact ⟨by omega, rfl⟩

theorem frame_fits_in_bounds (gif : GifFileType) (frame : SavedImage)
    (h : frame_fits gif frame) : writes_in_bounds gif frame := by
  intro y hy x hx
  obtain ⟨h1, h2⟩ := h
  have hx1 : x < frame.ImageDesc.Width := lt_of_lt_of_le hx (min_le_right _ _)
  have hy1 : y < frame.ImageDesc.Height := lt_of_lt_of_le hy (min_le_right _ _)
  unfold pixel_index
  have h3 : (frame.ImageDesc.Top + y + 1) * gif.SWidth ≤ gif.SHeight * gif.SWidth :=
    Nat.mul_le_mul_right _ (by omega)
  have h4 : (frame.ImageDesc.Top + y + 1) * gif.SWidth =
      (frame.ImageDesc.Top + y) * gif.SWidth + gif.SWidth := by ring
  have h5 : gif.SHeight * gif.SWidth = gif.SWidth * gif.SHeight := Nat.mul_comm _ _
  omega

theorem scan_extensions_spec (gif : GifFileType) (frame : SavedImage) (pixels : List Nat)
    (hlen : pixels.length = gif.SWidth * gif.SHeight) (hdata : frame_data_ok gif frame) :
    ∃ ctl, scan_extensions gif frame pixels = some ctl ∧
      ctl.pixels.length = gif.SWidth * gif.SHeight ∧
      ((∃ block ∈ frame.ExtensionBlocks, block.Function = GRAPHICS_EXT_FUNC_CODE ∧
          block.Bytes[0]?.map dispose_of = some 2) →
        ctl.pixels = List.replicate (gif.SWidth * gif.SHeight) gif.SBackGroundColor) := by
  obtain ⟨ctl, h1, h2, h3⟩ := scan_blocks_spec gif frame.ExtensionBlocks
    ⟨false, 0, pixels⟩ hlen hdata.2.2
  exact ⟨ctl, h1, h2, fun h => h3 (Or.inr h)⟩

theorem process_frame_spec (gif : GifFileType) (frame : SavedImage) (pixels : List Nat)
    (hlen : pixels.length = gif.SWidth * gif.SHeight) (hdata : frame_data_ok gif frame)
    (hbounds : writes_in_bounds gif frame) :
    ∃ out, process_frame gif frame pixels = some out ∧
      out.length = gif.SWidth * gif.SHeight := by
  obtain ⟨ctl, h1, h2, _⟩ := scan_extensions_spec gif frame pixels hlen hdata
  obtain ⟨out, h4, h5, _⟩ := composite_spec gif frame ctl.transparency
    ctl.transparency_byte hdata hbounds ctl.pixels h2
  exact ⟨out, by simp [process_frame, h1, h4], h5⟩

theorem frames_fold_spec (gif : GifFileType) (frames : List SavedImage) :
    ∀ (pixels : List Nat) (result : List Image),
      pixels.length = gif.SWidth * gif.SHeight →
      (∀ frame ∈ frames, frame_data_ok gif frame ∧ writes_in_bounds gif frame) →
      ∃ out images, frames.foldlM (frame_step gif) (pixels, result) =
          some (out, result ++ images) ∧
        images.length = frames.length ∧
        (∀ img ∈ images, img._width = gif.SWidth ∧ img._height = gif.SHeight) ∧
        ∀ i, i < frames.length → ∃ canvas,
          (frames.take (i + 1)).foldlM (fun px frame => process_frame gif frame px)
            pixels = some canvas ∧
          images[i]? = some (Image.create gif.SWidth gif.SHeight canvas) := by
  induction frames with
  | nil =>
    intro pixels result _ _
    exact ⟨pixels, [], by simp, rfl, by simp, by simp⟩
  | cons f fs ih =>
    intro pixels result hlen hok
    obtain ⟨hd, hb⟩ := hok f (List.mem_cons_self f fs)
    obtain ⟨px1, hp, hlen1⟩ := process_frame_spec gif f pixels hlen hd hb
    obtain ⟨out, images, hfold, hcount, hdims, horder⟩ := ih px1
      (result ++ [Image.create gif.SWidth gif.SHeight px1]) hlen1
      (fun frame hf => hok frame (List.mem_cons_of_mem f hf))
    refine ⟨out, Image.create gif.SWidth gif.SHeight px1 :: images, ?_, ?_, ?_, ?_⟩
    · simp only [List.foldlM_cons, frame_step, hp, Option.map_some', Option.bind_eq_bind,
        Option.some_bind]
      rw [hfold]
      simp
    · simp [hcount]
    · intro img himg
      rcases List.mem_cons.mp himg with e | h1
      · subst e
        exact ⟨rfl, rfl⟩
      · exact hdims img h1
    · intro i hi
      cases i with
      | zero =>
        refine ⟨px1, ?_, by simp⟩
        simp [hp]
      | succ j =>
        obtain ⟨canvas, hc1, hc2⟩ := horder j (by simpa using hi)
        refine ⟨canvas, ?_, by simpa using hc2⟩
        simp only [List.take_succ_cons, List.foldlM_cons, hp, Option.bind_eq_bind,
          Option.some_bind]
        exact hc1

/-- C7: for a frame that fits inside the canvas and whose graphics-control
block enables transparency, every frame coordinate `(x, y)` whose raster byte
equals the transparent index leaves canvas pixel `(Left + x, Top + y)` as it
was just before compositing, whenever compositing completes; and it
completes on every canvas of the GIF when the frame data is well formed. -/
theorem C7_transparent_pixels_kept (gif : GifFileType) (frame : SavedImage)
    (pixels : List Nat) (ctl : FrameControl) (x y : Nat)
    (hfits : frame_fits gif frame)
    (hscan : scan_extensions gif frame pixels = some ctl)
    (htrans : ctl.transparency = true)
    (hx : x < frame.ImageDesc.Width) (hy : y < frame.ImageDesc.Height)
    (hbyte : frame.RasterBits[x + y * frame.ImageDesc.Width]? =
      some ctl.transparency_byte) :
    (∀ out, process_frame gif frame pixels = some out →
      out[pixel_index gif frame x y]? = ctl.pixels[pixel_index gif frame x y]?) ∧
    (pixels.length = gif.SWidth * gif.SHeight → frame_data_ok gif frame →
      ∃ out, process_frame gif frame pixels = some out) := by
  constructor
  · intro out hout
    simp only [process_frame, hscan, Option.some_bind] at hout
    obtain ⟨_, hframe⟩ := composite_some gif frame ctl.transparency
      ctl.transparency_byte ctl.pixels out hout
    apply hframe
    intro y1 hy1 x1 hx1 v hc
    have hx2 : x1 < frame.ImageDesc.Width := lt_of_lt_of_le hx1 (min_le_right _ _)
    unfold gif_cell at hc
    cases hb : frame.RasterBits[x1 + y1 * frame.ImageDesc.Width]? with
    | none => simp [hb] at hc
    | some byte =>
      simp only [hb] at hc
      split at hc
      · simp at hc
      · rename_i hskip
        simp only [Option.map_eq_some'] at hc
        obtain ⟨c, _, hc⟩ := hc
        simp only [Prod.mk.injEq] at hc
        have hidx := hc.1
        unfold pixel_index at hidx
        obtain ⟨hfw, _⟩ := hfits
        have hinj := index_inj (w := gif.SWidth)
          (a := frame.ImageDesc.Left + x1) (c := frame.ImageDesc.Left + x)
          (b := frame.ImageDesc.Top + y1) (d := frame.ImageDesc.Top + y)
          (by omega) (by omega) hidx
        have ex : x1 = x := by omega
        have ey : y1 = y := by omega
        subst ex; subst ey
        rw [hbyte] at hb
        cases hb
        apply hskip
        simp [htrans]
  · intro hlen hdata
    obtain ⟨out, h, _⟩ := process_frame_spec gif frame pixels hlen hdata
      (frame_fits_in_bounds gif frame hfits)
    exact ⟨out, h⟩

/-- C8: the canvas is initialised with the background colour, and for a frame
with a graphics-control block of disposal method 2, drawn over any canvas of
the GIF, every canvas pixel of the snapshot produced for that frame that the
compositing of the frame does not write equals that background colour; the
snapshot is produced whenever the frame data is well formed and the writes
stay inside the canvas array. -/
theorem C8_restore_to_background (gif : GifFileType) (frame : SavedImage)
    (pixels : List Nat) (result : List Image)
    (hlen : pixels.length = gif.SWidth * gif.SHeight)
    (hdispose : ∃ block ∈ frame.ExtensionBlocks,
      block.Function = GRAPHICS_EXT_FUNC_CODE ∧
        block.Bytes[0]?.map dispose_of = some 2) :
    (gif.SWidth * gif.SHeight < 2 ^ 31 → initial_canvas gif =
      some (List.replicate (gif.SWidth * gif.SHeight) gif.SBackGroundColor)) ∧
    (∀ ctl out images, scan_extensions gif frame pixels = some ctl →
      frame_step gif (pixels, result) frame = some (out, images) →
      images = result ++ [Image.create gif.SWidth gif.SHeight out] ∧
      ∀ i, i < gif.SWidth * gif.SHeight → ¬ written gif frame ctl i →
        out[i]? = some gif.SBackGroundColor) ∧
    (frame_data_ok gif frame → writes_in_bounds gif frame →
      ∃ out, frame_step gif (pixels, result) frame =
        some (out, result ++ [Image.create gif.SWidth gif.SHeight out])) := by
  refine ⟨?_, ?_, ?_⟩
  · intro hcanvas
    unfold initial_canvas
    rw [if_pos hcanvas]
    exact fill_background_eq gif _ (by simp)
  · intro ctl out images hscan hstep
    simp only [frame_step, process_frame, hscan, Option.some_bind, Option.map_eq_some',
      Prod.mk.injEq] at hstep
    obtain ⟨px, hcomp, e1, e2⟩ := hstep
    subst e1
    refine ⟨e2.symm, ?_⟩
    obtain ⟨_, hclear⟩ := scan_blocks_some gif frame.ExtensionBlocks ⟨false, 0, pixels⟩
      ctl hlen hscan
    obtain ⟨_, hframe⟩ := composite_some gif frame ctl.transparency
      ctl.transparency_byte ctl.pixels px hcomp
    intro i hi hnot
    rw [hframe i, hclear (Or.inr hdispose), List.getElem?_replicate]
    · simp [hi]
    · intro y hy x hx v hc
      exact hnot (gif_cell_written gif frame ctl y x i v hy hx hc)
  · intro hdata hbounds
    obtain ⟨out, h, _⟩ := process_frame_spec gif frame pixels hlen hdata hbounds
    exact ⟨out, by simp [frame_step, h]⟩

/-- Whenever the loop over the frames completes, it has appended one image
per frame, each of the canvas size and holding the canvas after its frame. -/
theorem frames_fold_some (gif : GifFileType) (frames : List SavedImage) :
    ∀ (pixels : List Nat) (result : List Image) (out : List Nat) (r : List Image),
      frames.foldlM (frame_step gif) (pixels, result) = some (out, r) →
      ∃ images, r = result ++ images ∧
        images.length = frames.length ∧
        (∀ img ∈ images, img._width = gif.SWidth ∧ img._height = gif.SHeight) ∧
        ∀ i, i < frames.length → ∃ canvas,
          (frames.take (i + 1)).foldlM (fun px frame => process_frame gif frame px)
            pixels = some canvas ∧
          images[i]? = some (Image.create gif.SWidth gif.SHeight canvas) := by
  induction frames with
  | nil =>
    intro pixels result out r h
    simp only [List.foldlM_nil, Option.pure_def, Option.some.injEq, Prod.mk.injEq] at h
    exact ⟨[], by simp [h.2], rfl, by simp, by simp⟩
  | cons f fs ih =>
    intro pixels result out r h
    simp only [List.foldlM_cons, Option.bind_eq_bind, Option.bind_eq_some] at h
    obtain ⟨st, hst, hrest⟩ := h
    simp only [frame_step, Option.map_eq_some'] at hst
    obtain ⟨px1, hp, e⟩ := hst
    subst e
    obtain ⟨images, hr, hcount, hdims, horder⟩ := ih px1 _ out r hrest
    refine ⟨Image.create gif.SWidth gif.SHeight px1 :: images, ?_, ?_, ?_, ?_⟩
    · rw [hr]; simp
    · simp [hcount]
    · intro img himg
      rcases List.mem_cons.mp himg with e | h1
      · subst e
        exact ⟨rfl, rfl⟩
      · exact hdims img h1
    · intro i hi
      cases i with
      | zero =>
        refine ⟨px1, ?_, by simp⟩
        simp [hp]
      | succ j =>
        obtain ⟨canvas, hc1, hc2⟩ := horder j (by simpa using hi)
        refine ⟨canvas, ?_, by simpa using hc2⟩
        simp only [List.take_succ_cons, List.foldlM_cons, hp, Option.bind_eq_bind,
          Option.some_bind]
        exact hc1

/-- C9, as stated, fails: `overhanging_gif` is a parsed GIF with one stored
frame, and `load_animation_gif` does not return on it: the frame is written
outside the canvas array. -/
theorem C9_counterexample :
    overhanging_gif.ImageCount = 1 ∧
    load_animation_gif (.parsed overhanging_gif) = none ∧
    ¬ ∃ result, load_animation_gif (.parsed overhanging_gif) = some result ∧
      result.length = overhanging_gif.ImageCount := by
  have hnone : load_animation_gif (.parsed overhanging_gif) = none := by decide
  refine ⟨rfl, hnone, ?_⟩
  rintro ⟨result, h, _⟩
  rw [hnone] at h
  cases h

/-- C9, amended: on every successfully parsed GIF whose canvas size fits an
`int`, whose frame data is well formed and whose frames are written inside
the canvas array, `load_animation_gif` returns exactly `ImageCount` images,
the `i`-th being the snapshot of the canvas after frame `i`, each with the
logical screen width and height, whatever the sub-rectangles of the frames;
and on any parsed GIF the result has these properties whenever the function
completes. -/
theorem C9_one_image_per_frame (gif : GifFileType) :
    (∀ result, load_animation_gif (.parsed gif) = some result →
      result.length = gif.ImageCount ∧
      (∀ img ∈ result, img._width = gif.SWidth ∧ img._height = gif.SHeight) ∧
      ∀ i, i < gif.ImageCount → ∃ canvas,
        canvas_after gif (i + 1) = some canvas ∧
        result[i]? = some (Image.create gif.SWidth gif.SHeight canvas)) ∧
    (gif.SWidth * gif.SHeight < 2 ^ 31 →
      (∀ frame ∈ gif.SavedImages, frame_data_ok gif frame ∧ writes_in_bounds gif frame) →
      ∃ result, load_animation_gif (.parsed gif) = some result ∧
        result.length = gif.ImageCount ∧
        (∀ img ∈ result, img._width = gif.SWidth ∧ img._height = gif.SHeight) ∧
        ∀ i, i < gif.ImageCount → ∃ canvas,
          canvas_after gif (i + 1) = some canvas ∧
          result[i]? = some (Image.create gif.SWidth gif.SHeight canvas)) := by
  have hpost : ∀ result, load_animation_gif (.parsed gif) = some result →
      result.length = gif.ImageCount ∧
      (∀ img ∈ result, img._width = gif.SWidth ∧ img._height = gif.SHeight) ∧
      ∀ i, i < gif.ImageCount → ∃ canvas,
        canvas_after gif (i + 1) = some canvas ∧
        result[i]? = some (Image.create gif.SWidth gif.SHeight canvas) := by
    intro result h
    simp only [load_animation_gif, Option.bind_eq_some, Option.map_eq_some'] at h
    obtain ⟨pixels, hinit, st, hfold, e⟩ := h
    obtain ⟨out, r⟩ := st
    simp only at e
    subst e
    obtain ⟨images, hr, hcount, hdims, horder⟩ := frames_fold_some gif gif.SavedImages
      pixels [] out r hfold
    simp only [List.nil_append] at hr
    subst hr
    refine ⟨hcount, hdims, ?_⟩
    intro i hi
    obtain ⟨canvas, hc1, hc2⟩ := horder i hi
    exact ⟨canvas, by simp [canvas_after, hinit, hc1], hc2⟩
  refine ⟨hpost, ?_⟩
  intro hcanvas hframes
  have hinit : initial_canvas gif =
      some (List.replicate (gif.SWidth * gif.SHeight) gif.SBackGroundColor) := by
    unfold initial_canvas
    rw [if_pos hcanvas]
    exact fill_background_eq gif _ (by simp)
  obtain ⟨out, images, hfold, _⟩ := frames_fold_spec gif gif.SavedImages
    (List.replicate (gif.SWidth * gif.SHeight) gif.SBackGroundColor) []
    (by simp) hframes
  have hres : load_animation_gif (.parsed gif) = some images := by
    simp [load_animation_gif, hinit, hfold]
  exact ⟨images, hres, hpost images hres⟩

set_option maxRecDepth 4096 in
/-- C7 on `sample_frame_keep`, drawn over the canvas `[5, 6, 7, 8]`: frame
coordinate `(0, 0)` is transparent and canvas pixel 0 keeps its value. -/
theorem C7_transparent_pixels_kept_witness :
    (∀ out, process_frame sample_gif sample_frame_keep [5, 6, 7, 8] = some out →
      out[pixel_index sample_gif sample_frame_keep 0 0]? =
        (⟨true, 0, [5, 6, 7, 8]⟩ : FrameControl).pixels[
          pixel_index sample_gif sample_frame_keep 0 0]?) ∧
    (([5, 6, 7, 8] : List Nat).length = sample_gif.SWidth * sample_gif.SHeight →
      frame_data_ok sample_gif sample_frame_keep →
      ∃ out, process_frame sample_gif sample_frame_keep [5, 6, 7, 8] = some out) :=
  C7_transparent_pixels_kept sample_gif sample_frame_keep [5, 6, 7, 8]
    ⟨true, 0, [5, 6, 7, 8]⟩ 0 0 (by decide) (by decide) (by decide) (by decide)
    (by decide) (by decide)

set_option maxRecDepth 4096 in
/-- C8 on `sample_frame_clear`, drawn over the canvas `[5, 6, 7, 8]`: the
snapshot is `[0, green, 0, 0]`. -/
theorem C8_restore_to_background_witness :
    frame_data_ok sample_gif sample_frame_clear ∧
    writes_in_bounds sample_gif sample_frame_clear ∧
    frame_step sample_gif ([5, 6, 7, 8], []) sample_frame_clear =
      some ([0, rgba_word ⟨0, 255, 0⟩, 0, 0],
        [Image.create 2 2 [0, rgba_word ⟨0, 255, 0⟩, 0, 0]]) ∧
    ∀ i, i < sample_gif.SWidth * sample_gif.SHeight →
      ¬ written sample_gif sample_frame_clear ⟨true, 0, [0, 0, 0, 0]⟩ i →
      [0, rgba_word ⟨0, 255, 0⟩, 0, 0][i]? = some sample_gif.SBackGroundColor :=
  ⟨by decide, by decide, by decide,
    ((C8_restore_to_background sample_gif sample_frame_clear [5, 6, 7, 8] []
      (by decide) (by decide)).2.1 ⟨true, 0, [0, 0, 0, 0]⟩
      [0, rgba_word ⟨0, 255, 0⟩, 0, 0]
      [Image.create 2 2 [0, rgba_word ⟨0, 255, 0⟩, 0, 0]] (by decide) (by decide)).2⟩

set_option maxRecDepth 4096 in
/-- C9, amended, on `sample_gif`: two frames, two images of 2 by 2 pixels. -/
theorem C9_one_image_per_frame_witness :
    sample_gif.ImageCount = 2 ∧
    sample_gif.SWidth * sample_gif.SHeight < 2 ^ 31 ∧
    (∀ frame ∈ sample_gif.SavedImages,
      frame_data_ok sample_gif frame ∧ writes_in_bounds sample_gif frame) ∧
    ∃ result, load_animation_gif (.parsed sample_gif) = some result ∧
      result.length = sample_gif.ImageCount ∧
      (∀ img ∈ result, img._width = sample_gif.SWidth ∧
        img._height = sample_gif.SHeight) ∧
      ∀ i, i < sample_gif.ImageCount → ∃ canvas,
        canvas_after sample_gif (i + 1) = some canvas ∧
        result[i]? = some (Image.create sample_gif.SWidth sample_gif.SHeight canvas) :=
  ⟨by decide, by decide, by decide,
    (C9_one_image_per_frame sample_gif).2 (by decide) (by decide)⟩

/-- C4 fails on the code: on a 2 by 2 canvas, a 2 by 2 frame at `Left = 1`
passes the loop bounds `min(width, fw)` and `min(height, fh)` at every frame
coordinate; at `(1, 0)` the column `Left + x` is 2 and the write lands at
index 2, the first pixel of the next row; at `(1, 1)` the index is 4, outside
the four-pixel canvas. -/
theorem C4_overhanging_frame_not_clipped :
    (1 < min overhanging_gif.SHeight overhanging_frame.ImageDesc.Height ∧
      1 < min overhanging_gif.SWidth overhanging_frame.ImageDesc.Width) ∧
    ¬ (overhanging_frame.ImageDesc.Left + 1 < overhanging_gif.SWidth) ∧
    put_pixel overhanging_gif overhanging_frame false 0 0 1 [0, 0, 0, 0] =
      some [0, 0, rgba_word ⟨0, 255, 0⟩, 0] ∧
    pixel_index overhanging_gif overhanging_frame 1 1 = 4 ∧
    ¬ (pixel_index overhanging_gif overhanging_frame 1 1 <
      overhanging_gif.SWidth * overhanging_gif.SHeight) ∧
    put_pixel overhanging_gif overhanging_frame false 0 1 1 [0, 0, 0, 0] = none ∧
    load_animation_gif (.parsed overhanging_gif) = none := by
  decide


/-! ## Claim C6: `WebmExporter::encode_frame` -/

theorem u32_eq {n : Nat} (h : n < 2 ^ 32) : u32 n = n := Nat.mod_eq_of_lt h

theorem cell_lt {a b w s h : Nat} (ha : a < w) (hws : w ≤ s) (hb : b < h) :
    a + b * s < s * h := by
  have h1 : (b + 1) * s ≤ h * s := Nat.mul_le_mul_right _ hb
  have h2 : (b + 1) * s = b * s + s := by ring
  have h3 : h * s = s * h := Nat.mul_comm _ _
  omega

theorem texel_some {width height : Nat} {data : List Byte}
    (hdata : data.length = 4 * width * height) {a b c : Nat}
    (ha : a < width) (hb : b < height) (hc : c < 4) :
    ∃ v, texel width data a b c = some v := by
  have h1 := cell_lt ha (Nat.le_refl width) hb
  have h2 : 4 * width * height = 4 * (width * height) := by ring
  have h3 : 4 * (a + b * width) + c < data.length := by omega
  exact ⟨data[4 * (a + b * width) + c], List.getElem?_eq_getElem h3⟩

/-- The invariant of the luma loops: only the Y plane changes, and it keeps
its size. -/
theorem luma_step_spec (width height : Nat) (data : List Byte) (img : vpx_image)
    (hdata : data.length = 4 * width * height) (h32 : 4 * width * height ≤ 2 ^ 32)
    (hsY : width ≤ img.strideY) (hY : img.strideY * height ≤ img.planeY.length)
    (hY32 : img.strideY * height ≤ 2 ^ 32)
    (y : Nat) (hy : y < height) (x : Nat) (hx : x < width) (t : vpx_image)
    (ht : t.planeY.length = img.planeY.length ∧ t.planeU = img.planeU ∧
      t.planeV = img.planeV ∧ t.strideY = img.strideY ∧ t.strideU = img.strideU ∧
      t.strideV = img.strideV) :
    ∃ t1, luma_step width data y x t = some t1 ∧
      (t1.planeY.length = img.planeY.length ∧ t1.planeU = img.planeU ∧
        t1.planeV = img.planeV ∧ t1.strideY = img.strideY ∧ t1.strideU = img.strideU ∧
        t1.strideV = img.strideV) ∧
      t1.planeY = apply_cell (luma_cell width data img.strideY y x) t.planeY := by
  obtain ⟨hl, hu, hv, hs1, hs2, hs3⟩ := ht
  obtain ⟨v, hv0⟩ := texel_some hdata hx hy (by decide : 0 < 4)
  have h1 := cell_lt hx (Nat.le_refl width) hy
  have h2 : 4 * width * height = 4 * (width * height) := by ring
  have h3 := cell_lt hx hsY hy
  have e1 : u32 (4 * (x + y * width)) = 4 * (x + y * width) + 0 := by
    rw [u32_eq (by omega)]; rfl
  have e2 : u32 (x + y * t.strideY) = x + y * img.strideY := by
    rw [hs1, u32_eq (by omega)]
  unfold texel at hv0
  unfold luma_step luma_cell texel
  rw [e1, hv0, e2]
  simp only [Option.map_some']
  rw [store_eq _ (by omega)]
  exact ⟨_, rfl, ⟨by simpa using hl, hu, hv, hs1, hs2, hs3⟩, rfl⟩

theorem box_average_some {width height : Nat} {data : List Byte}
    (hdata : data.length = 4 * width * height) {x y c : Nat}
    (hx : x < width / 2) (hy : y < height / 2) (hc : c < 4) :
    ∃ t00 t10 t01 t11 : Byte,
      texel width data (2 * x) (2 * y) c = some t00 ∧
      texel width data (2 * x + 1) (2 * y) c = some t10 ∧
      texel width data (2 * x) (2 * y + 1) c = some t01 ∧
      texel width data (2 * x + 1) (2 * y + 1) c = some t11 ∧
      box_average width data x y c =
        some ((t00.val + t10.val + t01.val + t11.val) / 4) := by
  obtain ⟨t00, h00⟩ := texel_some hdata (a := 2 * x) (b := 2 * y) (c := c)
    (by omega) (by omega) hc
  obtain ⟨t10, h10⟩ := texel_some hdata (a := 2 * x + 1) (b := 2 * y) (c := c)
    (by omega) (by omega) hc
  obtain ⟨t01, h01⟩ := texel_some hdata (a := 2 * x) (b := 2 * y + 1) (c := c)
    (by omega) (by omega) hc
  obtain ⟨t11, h11⟩ := texel_some hdata (a := 2 * x + 1) (b := 2 * y + 1) (c := c)
    (by omega) (by omega) hc
  exact ⟨t00, t10, t01, t11, h00, h10, h01, h11, by simp [box_average, h00, h10, h01, h11]⟩

/-- The index expressions of the chroma loops do not wrap and address the
four texels of the 2 by 2 block. -/
theorem chroma_index_eq {width height : Nat} (h32 : 4 * width * height ≤ 2 ^ 32)
    {x y c : Nat} (hx : x < width / 2) (hy : y < height / 2) (hc : c < 4) :
    u32 (c + u32 (4 * (2 * x + 2 * y * width))) = 4 * (2 * x + 2 * y * width) + c ∧
    u32 (c + u32 (4 * (2 * x + (1 + 2 * y) * width))) =
      4 * (2 * x + (2 * y + 1) * width) + c ∧
    u32 (c + u32 (4 * (1 + 2 * x + 2 * y * width))) =
      4 * (2 * x + 1 + 2 * y * width) + c ∧
    u32 (c + u32 (4 * (1 + 2 * x + (1 + 2 * y) * width))) =
      4 * (2 * x + 1 + (2 * y + 1) * width) + c := by
  have h2 : 4 * width * height = 4 * (width * height) := by ring
  have a00 := cell_lt (a := 2 * x) (b := 2 * y) (w := width) (s := width) (h := height)
    (by omega) (Nat.le_refl _) (by omega)
  have a01 := cell_lt (a := 2 * x) (b := 2 * y + 1) (w := width) (s := width) (h := height)
    (by omega) (Nat.le_refl _) (by omega)
  have a10 := cell_lt (a := 2 * x + 1) (b := 2 * y) (w := width) (s := width) (h := height)
    (by omega) (Nat.le_refl _) (by omega)
  have a11 := cell_lt (a := 2 * x + 1) (b := 2 * y + 1) (w := width) (s := width)
    (h := height) (by omega) (Nat.le_refl _) (by omega)
  have r1 : (1 + 2 * y) * width = (2 * y + 1) * width := by ring
  have r2 : 1 + 2 * x = 2 * x + 1 := by ring
  rw [r1, r2]
  refine ⟨?_, ?_, ?_, ?_⟩
  · rw [u32_eq (n := 4 * _) (by omega), u32_eq (by omega)]; omega
  · rw [u32_eq (n := 4 * _) (by omega), u32_eq (by omega)]; omega
  · rw [u32_eq (n := 4 * _) (by omega), u32_eq (by omega)]; omega
  · rw [u32_eq (n := 4 * _) (by omega), u32_eq (by omega)]; omega

/-- The invariant of the chroma loops: the Y plane is left alone, the U and V
planes keep their sizes, and each cell stores the two box averages. -/
theorem chroma_step_spec (width height : Nat) (data : List Byte) (img : vpx_image)
    (hdata : data.length = 4 * width * height) (h32 : 4 * width * height ≤ 2 ^ 32)
    (hsU : width / 2 ≤ img.strideU)
    (hU : img.strideU * (height / 2) ≤ img.planeU.length)
    (hU32 : img.strideU * (height / 2) ≤ 2 ^ 32)
    (hsV : width / 2 ≤ img.strideV)
    (hV : img.strideV * (height / 2) ≤ img.planeV.length)
    (hV32 : img.strideV * (height / 2) ≤ 2 ^ 32)
    (planeY : List Byte)
    (y : Nat) (hy : y < height / 2) (x : Nat) (hx : x < width / 2) (t : vpx_image)
    (ht : t.planeY = planeY ∧ t.planeU.length = img.planeU.length ∧
      t.planeV.length = img.planeV.length ∧ t.strideY = img.strideY ∧
      t.strideU = img.strideU ∧ t.strideV = img.strideV) :
    ∃ t1, chroma_step width data y x t = some t1 ∧
      (t1.planeY = planeY ∧ t1.planeU.length = img.planeU.length ∧
        t1.planeV.length = img.planeV.length ∧ t1.strideY = img.strideY ∧
        t1.strideU = img.strideU ∧ t1.strideV = img.strideV) ∧
      t1.planeU = apply_cell (chroma_cell width data img.strideU 1 y x) t.planeU ∧
      t1.planeV = apply_cell (chroma_cell width data img.strideV 2 y x) t.planeV := by
  obtain ⟨hl, hu, hv, hs1, hs2, hs3⟩ := ht
  obtain ⟨u00, u10, u01, u11, hu00, hu10, hu01, hu11, hua⟩ :=
    box_average_some hdata hx hy (by decide : 1 < 4)
  obtain ⟨v00, v10, v01, v11, hv00, hv10, hv01, hv11, hva⟩ :=
    box_average_some hdata hx hy (by decide : 2 < 4)
  obtain ⟨i1, i2, i3, i4⟩ := chroma_index_eq h32 hx hy (by decide : 1 < 4)
  obtain ⟨j1, j2, j3, j4⟩ := chroma_index_eq h32 hx hy (by decide : 2 < 4)
  have h3 := cell_lt hx hsU hy
  have h4 := cell_lt hx hsV hy
  have e1 : u32 (x + y * t.strideU) = x + y * img.strideU := by
    rw [hs2, u32_eq (by omega)]
  have e2 : u32 (x + y * t.strideV) = x + y * img.strideV := by
    rw [hs3, u32_eq (by omega)]
  have hua1 : box_average width data x y 1 =
      some ((u00.val + u01.val + u10.val + u11.val) / 4) := by
    rw [hua]; congr 2; omega
  have hva1 : box_average width data x y 2 =
      some ((v00.val + v01.val + v10.val + v11.val) / 4) := by
    rw [hva]; congr 2; omega
  unfold texel at hu00 hu10 hu01 hu11 hv00 hv10 hv01 hv11
  unfold chroma_step chroma_cell
  simp only [i1, i2, i3, i4, j1, j2, j3, j4, hu00, hu10, hu01, hu11, hv00, hv10, hv01,
    hv11, e1, e2, hua1, hva1, Option.map_some']
  rw [store_eq _ (by omega), store_eq _ (by omega)]
  exact ⟨_, rfl, ⟨hl, by simpa using hu, by simpa using hv, hs1, hs2, hs3⟩, rfl, rfl⟩

theorem luma_cell_index {width : Nat} {data : List Byte} {stride y x i : Nat} {v : Byte}
    (h : luma_cell width data stride y x = some (i, v)) : i = x + y * stride := by
  unfold luma_cell at h
  simp only [Option.map_eq_some'] at h
  obtain ⟨_, _, h⟩ := h
  simp only [Prod.mk.injEq] at h
  exact h.1.symm

theorem chroma_cell_index {width : Nat} {data : List Byte} {stride c y x i : Nat}
    {v : Byte} (h : chroma_cell width data stride c y x = some (i, v)) :
    i = x + y * stride := by
  unfold chroma_cell at h
  simp only [Option.map_eq_some'] at h
  obtain ⟨_, _, h⟩ := h
  simp only [Prod.mk.injEq] at h
  exact h.1.symm

/-- Cells of a plane with `w ≤ stride` that assign the same index are the
same cell. -/
theorem plane_cells_agree {α : Type} (cell : Nat → Nat → Option (Nat × α))
    (w h stride : Nat) (hs : w ≤ stride)
    (hidx : ∀ y x i v, cell y x = some (i, v) → i = x + y * stride) :
    ∀ y, y < h → ∀ x, x < w → ∀ y1, y1 < h → ∀ x1, x1 < w → ∀ i v v1,
      cell y x = some (i, v) → cell y1 x1 = some (i, v1) → v = v1 := by
  intro y _ x hx y1 _ x1 hx1 i v v1 hc hc1
  have e := hidx y x i v hc
  have e1 := hidx y1 x1 i v1 hc1
  obtain ⟨ex, ey⟩ := index_inj (w := stride) (a := x) (c := x1) (b := y) (d := y1)
    (by omega) (by omega) (by omega)
  subst ex; subst ey
  rw [hc] at hc1
  simp only [Option.some.injEq, Prod.mk.injEq] at hc1
  exact hc1.2

/-- C6: `WebmExporter::encode_frame`, given a buffer of `4 * width * height`
bytes and a scratch image whose planes hold `width` by `height` luma and
`width / 2` by `height / 2` chroma samples, runs without reading or writing
outside a buffer (so every texel index read is below `4 * width * height`),
and afterwards luma sample `(x, y)` is channel 0 of texel `(x, y)`, U sample
`(x, y)` is the truncating quotient by 4 of the sum of channel 1 over the
texels `(2x, 2y)`, `(2x+1, 2y)`, `(2x, 2y+1)`, `(2x+1, 2y+1)`, V sample
`(x, y)` is the same average of channel 2, and every sample is at most 255. -/
theorem C6_encode_frame_fills_yuv420 (width height : Nat) (data : List Byte)
    (img : vpx_image)
    (hdata : data.length = 4 * width * height) (h32 : 4 * width * height ≤ 2 ^ 32)
    (hsY : width ≤ img.strideY) (hY : img.strideY * height ≤ img.planeY.length)
    (hY32 : img.strideY * height ≤ 2 ^ 32)
    (hsU : width / 2 ≤ img.strideU)
    (hU : img.strideU * (height / 2) ≤ img.planeU.length)
    (hU32 : img.strideU * (height / 2) ≤ 2 ^ 32)
    (hsV : width / 2 ≤ img.strideV)
    (hV : img.strideV * (height / 2) ≤ img.planeV.length)
    (hV32 : img.strideV * (height / 2) ≤ 2 ^ 32) :
    ∃ out, WebmExporter.encode_frame width height data img = some out ∧
      (∀ x y, x < width → y < height →
        u32 (4 * (x + y * width)) < 4 * width * height ∧
        ∃ v : Byte, texel width data x y 0 = some v ∧
          out.planeY[x + y * img.strideY]? = some v ∧ v.val ≤ 255) ∧
      (∀ x y, x < width / 2 → y < height / 2 →
        (∀ c, c = 1 ∨ c = 2 →
          u32 (c + u32 (4 * (2 * x + 2 * y * width))) < 4 * width * height ∧
          u32 (c + u32 (4 * (2 * x + (1 + 2 * y) * width))) < 4 * width * height ∧
          u32 (c + u32 (4 * (1 + 2 * x + 2 * y * width))) < 4 * width * height ∧
          u32 (c + u32 (4 * (1 + 2 * x + (1 + 2 * y) * width))) < 4 * width * height) ∧
        (∃ a, box_average width data x y 1 = some a ∧ a ≤ 255 ∧
          out.planeU[x + y * img.strideU]?.map Fin.val = some a) ∧
        (∃ a, box_average width data x y 2 = some a ∧ a ≤ 255 ∧
          out.planeV[x + y * img.strideV]?.map Fin.val = some a)) := by
  -- the luma loops
  obtain ⟨img1, hloop1, hgood1, _, hval1⟩ := fill_loop_spec
    (fun t : vpx_image => t.planeY)
    (fun t => t.planeY.length = img.planeY.length ∧ t.planeU = img.planeU ∧
      t.planeV = img.planeV ∧ t.strideY = img.strideY ∧ t.strideU = img.strideU ∧
      t.strideV = img.strideV)
    (luma_cell width data img.strideY)
    (fun y x t => luma_step width data y x t) height width img.planeY.length img
    (fun y hy x hx t ht =>
      luma_step_spec width height data img hdata h32 hsY hY hY32 y hy x hx t ht)
    (by
      intro y hy x hx i v hc
      rw [luma_cell_index hc]
      have := cell_lt hx hsY hy
      omega)
    (fun t ht => ht.1) ⟨rfl, rfl, rfl, rfl, rfl, rfl⟩
  have hval1 := hval1 (plane_cells_agree _ width height img.strideY hsY
    (fun y x i v h => luma_cell_index h))
  obtain ⟨hl1, hu1, hv1, hs1, hs2, hs3⟩ := hgood1
  -- the chroma loops, seen from the U plane and from the V plane
  have hbody := fun y hy x hx t ht =>
    chroma_step_spec width height data img hdata h32 hsU hU hU32 hsV hV hV32
      img1.planeY y hy x hx t ht
  obtain ⟨outU, hloopU, hgoodU, _, hvalU⟩ := fill_loop_spec
    (fun t : vpx_image => t.planeU)
    (fun t => t.planeY = img1.planeY ∧ t.planeU.length = img.planeU.length ∧
      t.planeV.length = img.planeV.length ∧ t.strideY = img.strideY ∧
      t.strideU = img.strideU ∧ t.strideV = img.strideV)
    (chroma_cell width data img.strideU 1)
    (fun y x t => chroma_step width data y x t) (height / 2) (width / 2)
    img.planeU.length img1
    (fun y hy x hx t ht => by
      obtain ⟨t1, h1, h2, h3, _⟩ := hbody y hy x hx t ht
      exact ⟨t1, h1, h2, h3⟩)
    (by
      intro y hy x hx i v hc
      rw [chroma_cell_index hc]
      have := cell_lt hx hsU hy
      omega)
    (fun t ht => ht.2.1) ⟨rfl, by rw [hu1], by rw [hv1], hs1, hs2, hs3⟩
  obtain ⟨outV, hloopV, _, _, hvalV⟩ := fill_loop_spec
    (fun t : vpx_image => t.planeV)
    (fun t => t.planeY = img1.planeY ∧ t.planeU.length = img.planeU.length ∧
      t.planeV.length = img.planeV.length ∧ t.strideY = img.strideY ∧
      t.strideU = img.strideU ∧ t.strideV = img.strideV)
    (chroma_cell width data img.strideV 2)
    (fun y x t => chroma_step width data y x t) (height / 2) (width / 2)
    img.planeV.length img1
    (fun y hy x hx t ht => by
      obtain ⟨t1, h1, h2, _, h4⟩ := hbody y hy x hx t ht
      exact ⟨t1, h1, h2, h4⟩)
    (by
      intro y hy x hx i v hc
      rw [chroma_cell_index hc]
      have := cell_lt hx hsV hy
      omega)
    (fun t ht => ht.2.2.1) ⟨rfl, by rw [hu1], by rw [hv1], hs1, hs2, hs3⟩
  have hsame : outV = outU := by
    rw [hloopU] at hloopV
    exact (Option.some.inj hloopV).symm
  subst hsame
  have hvalU := hvalU (plane_cells_agree _ (width / 2) (height / 2) img.strideU hsU
    (fun y x i v h => chroma_cell_index h))
  have hvalV := hvalV (plane_cells_agree _ (width / 2) (height / 2) img.strideV hsV
    (fun y x i v h => chroma_cell_index h))
  refine ⟨outV, ?_, ?_, ?_⟩
  · unfold WebmExporter.encode_frame
    rw [hloop1]
    exact hloopU
  · intro x y hx hy
    obtain ⟨v, hv⟩ := texel_some hdata hx hy (by decide : 0 < 4)
    have h1 := cell_lt hx (Nat.le_refl width) hy
    have h2 : 4 * width * height = 4 * (width * height) := by ring
    refine ⟨by rw [u32_eq (by omega)]; omega, v, hv, ?_, by omega⟩
    rw [hgoodU.1]
    exact hval1 y hy x hx trivial (x + y * img.strideY) v (by simp [luma_cell, hv])
  · intro x y hx hy
    refine ⟨?_, ?_, ?_⟩
    · intro c hc
      have hc4 : c < 4 := by omega
      obtain ⟨i1, i2, i3, i4⟩ := chroma_index_eq h32 hx hy hc4
      have h2 : 4 * width * height = 4 * (width * height) := by ring
      have a00 := cell_lt (a := 2 * x) (b := 2 * y) (w := width) (s := width)
        (h := height) (by omega) (Nat.le_refl _) (by omega)
      have a01 := cell_lt (a := 2 * x) (b := 2 * y + 1) (w := width) (s := width)
        (h := height) (by omega) (Nat.le_refl _) (by omega)
      have a10 := cell_lt (a := 2 * x + 1) (b := 2 * y) (w := width) (s := width)
        (h := height) (by omega) (Nat.le_refl _) (by omega)
      have a11 := cell_lt (a := 2 * x + 1) (b := 2 * y + 1) (w := width) (s := width)
        (h := height) (by omega) (Nat.le_refl _) (by omega)
      rw [i1, i2, i3, i4]
      omega
    · obtain ⟨t00, t10, t01, t11, _, _, _, _, ha⟩ :=
        box_average_some hdata hx hy (by decide : 1 < 4)
      have hb : (t00.val + t10.val + t01.val + t11.val) / 4 ≤ 255 := by
        have h1 := t00.isLt
        have h2 := t10.isLt
        have h3 := t01.isLt
        have h4 := t11.isLt
        omega
      refine ⟨_, ha, hb, ?_⟩
      rw [hvalU y hy x hx trivial (x + y * img.strideU)
        (to_byte ((t00.val + t10.val + t01.val + t11.val) / 4))
        (by simp [chroma_cell, ha])]
      simp only [Option.map_some', to_byte, Option.some.injEq]
      exact Nat.mod_eq_of_lt (by omega)
    · obtain ⟨t00, t10, t01, t11, _, _, _, _, ha⟩ :=
        box_average_some hdata hx hy (by decide : 2 < 4)
      have hb : (t00.val + t10.val + t01.val + t11.val) / 4 ≤ 255 := by
        have h1 := t00.isLt
        have h2 := t10.isLt
        have h3 := t01.isLt
        have h4 := t11.isLt
        omega
      refine ⟨_, ha, hb, ?_⟩
      rw [hvalV y hy x hx trivial (x + y * img.strideV)
        (to_byte ((t00.val + t10.val + t01.val + t11.val) / 4))
        (by simp [chroma_cell, ha])]
      simp only [Option.map_some', to_byte, Option.some.injEq]
      exact Nat.mod_eq_of_lt (by omega)


/-- C6 on a 2 by 2 frame with a scratch image of stride 2 for luma and
stride 1 for chroma. -/
theorem C6_encode_frame_fills_yuv420_witness :
    ∃ out, WebmExporter.encode_frame 2 2 sample_texels sample_scratch = some out ∧
      (∀ x y, x < 2 → y < 2 →
        u32 (4 * (x + y * 2)) < 4 * 2 * 2 ∧
        ∃ v : Byte, texel 2 sample_texels x y 0 = some v ∧
          out.planeY[x + y * sample_scratch.strideY]? = some v ∧ v.val ≤ 255) ∧
      (∀ x y, x < 2 / 2 → y < 2 / 2 →
        (∀ c, c = 1 ∨ c = 2 →
          u32 (c + u32 (4 * (2 * x + 2 * y * 2))) < 4 * 2 * 2 ∧
          u32 (c + u32 (4 * (2 * x + (1 + 2 * y) * 2))) < 4 * 2 * 2 ∧
          u32 (c + u32 (4 * (1 + 2 * x + 2 * y * 2))) < 4 * 2 * 2 ∧
          u32 (c + u32 (4 * (1 + 2 * x + (1 + 2 * y) * 2))) < 4 * 2 * 2) ∧
        (∃ a, box_average 2 sample_texels x y 1 = some a ∧ a ≤ 255 ∧
          out.planeU[x + y * sample_scratch.strideU]?.map Fin.val = some a) ∧
        (∃ a, box_average 2 sample_texels x y 2 = some a ∧ a ≤ 255 ∧
          out.planeV[x + y * sample_scratch.strideV]?.map Fin.val = some a)) :=
  C6_encode_frame_fills_yuv420 2 2 sample_texels sample_scratch (by decide) (by decide)
    (by decide) (by decide) (by decide) (by decide) (by decide) (by decide) (by decide)
    (by decide) (by decide)

/-! ## Claim C11: `Image::ensure_texture_uploaded` -/

theorem allocated_textures_append (l m : List Effect) :
    allocated_textures (l ++ m) = allocated_textures l ++ allocated_textures m := by
  induction l with
  | nil => rfl
  | cons e rest ih => cases e <;> simp [allocated_textures, ih]

/-- On an image that has a texture or is empty, a call does nothing and
returns `false`. -/
theorem ensure_texture_uploaded_noop (gen : List Effect → Nat) (img : Image)
    (log : List Effect) (h : img._texture ≠ 0 ∨ img.operator_bool = false) :
    Image.ensure_texture_uploaded gen img log = (false, img, log) := by
  unfold Image.ensure_texture_uploaded
  rw [if_pos]
  rcases h with h | h
  · simp [h]
  · simp [h]

theorem after_calls_noop (gen : List Effect → Nat) (img : Image) (log : List Effect)
    (h : img._texture ≠ 0 ∨ img.operator_bool = false) :
    ∀ n, after_calls gen n (img, log) = (img, log) := by
  intro n
  induction n with
  | zero => rfl
  | succ n ih =>
    simp only [after_calls, ih, ensure_texture_uploaded_noop gen img log h]

/-- C11: with a `glGenTextures` that never stores the reserved name 0, an
image is constructed without a texture; on a non-empty image without a
texture the first call of `ensure_texture_uploaded` allocates exactly one
texture handle, stores it and returns `true`, and every later call on that
image returns `false` and leaves the image, its handle and the effect log
unchanged; on an empty image every call returns `false` and changes
nothing. -/
theorem C11_ensure_texture_uploaded_idempotent (gen : List Effect → Nat) (img : Image)
    (log : List Effect) (hgen : ∀ l, gen l ≠ 0) :
    (∀ width height data, (Image.create width height data)._texture = 0) ∧
    (img.operator_bool = true → img._texture = 0 →
      ∃ img1 log1,
        Image.ensure_texture_uploaded gen img log = (true, img1, log1) ∧
        img1._texture ≠ 0 ∧
        allocated_textures log1 = allocated_textures log ++ [img1._texture] ∧
        ∀ n, after_calls gen n (img1, log1) = (img1, log1) ∧
          Image.ensure_texture_uploaded gen (after_calls gen n (img1, log1)).1
            (after_calls gen n (img1, log1)).2 = (false, img1, log1)) ∧
    (img.operator_bool = false →
      ∀ n, after_calls gen n (img, log) = (img, log) ∧
        Image.ensure_texture_uploaded gen (after_calls gen n (img, log)).1
          (after_calls gen n (img, log)).2 = (false, img, log)) := by
  refine ⟨fun _ _ _ => rfl, ?_, ?_⟩
  · intro hbool htex
    have hfirst : Image.ensure_texture_uploaded gen img log =
        (true, { img with _texture := gen log },
          log ++ [.glGenTextures (gen log), .new_texture_deleter (gen log),
            .glBindTexture (gen log), .glTexImage2D img._width img._height img.pixels,
            .glTexParameteri .GL_TEXTURE_WRAP_S .GL_CLAMP,
            .glTexParameteri .GL_TEXTURE_WRAP_T .GL_CLAMP,
            .glTexParameteri .GL_TEXTURE_MAG_FILTER .GL_LINEAR,
            .glTexParameteri .GL_TEXTURE_MIN_FILTER .GL_LINEAR]) := by
      unfold Image.ensure_texture_uploaded
      rw [if_neg (by simp [hbool, htex])]
    refine ⟨_, _, hfirst, hgen log, ?_, ?_⟩
    · rw [allocated_textures_append]
      simp [allocated_textures]
    · intro n
      have hno : ({ img with _texture := gen log } : Image)._texture ≠ 0 ∨
          ({ img with _texture := gen log } : Image).operator_bool = false :=
        Or.inl (hgen log)
      rw [after_calls_noop gen _ _ hno n]
      exact ⟨rfl, ensure_texture_uploaded_noop gen _ _ hno⟩
  · intro hbool n
    rw [after_calls_noop gen img log (Or.inr hbool) n]
    exact ⟨rfl, ensure_texture_uploaded_noop gen img log (Or.inr hbool)⟩

/-- C11 with `sample_gen`, on a 2 by 1 image and an empty effect log: the
first call allocates the handle 1 and returns `true`, the second returns
`false`. -/
theorem C11_ensure_texture_uploaded_idempotent_witness :
    (Image.ensure_texture_uploaded sample_gen (Image.create 2 1 [7, 8]) []).1 = true ∧
    (Image.ensure_texture_uploaded sample_gen (Image.create 2 1 [7, 8]) []).2.1._texture = 1 ∧
    allocated_textures
      (Image.ensure_texture_uploaded sample_gen (Image.create 2 1 [7, 8]) []).2.2 = [1] ∧
    ((Image.create 2 1 [7, 8]).operator_bool = true →
      (Image.create 2 1 [7, 8])._texture = 0 →
      ∃ img1 log1,
        Image.ensure_texture_uploaded sample_gen (Image.create 2 1 [7, 8]) [] =
          (true, img1, log1) ∧
        img1._texture ≠ 0 ∧
        allocated_textures log1 = allocated_textures [] ++ [img1._texture] ∧
        ∀ n, after_calls sample_gen n (img1, log1) = (img1, log1) ∧
          Image.ensure_texture_uploaded sample_gen (after_calls sample_gen n (img1, log1)).1
            (after_calls sample_gen n (img1, log1)).2 = (false, img1, log1)) :=
  ⟨by decide, by decide, by decide,
    (C11_ensure_texture_uploaded_idempotent sample_gen (Image.create 2 1 [7, 8]) []
      (fun l => Nat.succ_ne_zero l.length)).2.1⟩

/-! ## Rounding to single precision -/

theorem round_even_intCast (n : ℤ) : round_even (n : ℚ) = n := by
  simp [round_even]

theorem round_even_mono {r s : ℚ} (h : r ≤ s) : round_even r ≤ round_even s := by
  have hfl : ⌊r⌋ ≤ ⌊s⌋ := Int.floor_mono h
  have hr1 : (⌊r⌋ : ℚ) ≤ r := Int.floor_le r
  have hr2 : r < ⌊r⌋ + 1 := Int.lt_floor_add_one r
  have hs1 : (⌊s⌋ : ℚ) ≤ s := Int.floor_le s
  have hs2 : s < ⌊s⌋ + 1 := Int.lt_floor_add_one s
  rcases lt_or_eq_of_le hfl with hlt | heq
  · have hup : round_even r ≤ ⌊r⌋ + 1 := by
      unfold round_even
      split_ifs <;> omega
    have hlo : ⌊s⌋ ≤ round_even s := by
      unfold round_even
      split_ifs <;> omega
    omega
  · unfold round_even
    rw [← heq]
    split_ifs <;> first | omega | (exfalso; linarith)

theorem round_even_near {r : ℚ} {m : ℤ} (h : |r - m| < 1 / 2) : round_even r = m := by
  rw [abs_lt] at h
  obtain ⟨h1, h2⟩ := h
  rcases le_or_lt (m : ℚ) r with hle | hlt
  · have hfl : ⌊r⌋ = m := by
      rw [Int.floor_eq_iff]
      constructor
      · exact hle
      · linarith
    unfold round_even
    rw [hfl, if_pos (by linarith)]
  · have hfl : ⌊r⌋ = m - 1 := by
      rw [Int.floor_eq_iff]
      push_cast
      constructor <;> linarith
    unfold round_even
    rw [hfl]
    push_cast
    rw [if_neg (by linarith), if_pos (by linarith)]
    ring

theorem float_ulp_pos (x : ℚ) : 0 < float_ulp x := by
  unfold float_ulp
  positivity

theorem zpow_scale_low (e : ℤ) : (2 : ℚ) ^ e = 8388608 * 2 ^ (e - 23) := by
  rw [zpow_sub₀ (by norm_num : (2 : ℚ) ≠ 0)]
  norm_num
  field_simp

theorem zpow_scale_high (e : ℤ) : (2 : ℚ) ^ (e + 1) = 16777216 * 2 ^ (e - 23) := by
  rw [zpow_add_one₀ (by norm_num : (2 : ℚ) ≠ 0), zpow_scale_low e]
  ring

theorem round_magnitude_nonneg {x : ℚ} (h : 0 ≤ x) : 0 ≤ round_magnitude x := by
  unfold round_magnitude
  have h1 : (0 : ℚ) ≤ x / float_ulp x := div_nonneg h (le_of_lt (float_ulp_pos x))
  have h2 : round_even ((0 : ℤ) : ℚ) ≤ round_even (x / float_ulp x) :=
    round_even_mono (by simpa using h1)
  rw [round_even_intCast] at h2
  exact mul_nonneg (by exact_mod_cast h2) (le_of_lt (float_ulp_pos x))

theorem float_exponent_mono {x y : ℚ} (hx : 0 < x) (h : x ≤ y) :
    float_exponent x ≤ float_exponent y :=
  max_le_max (Int.log_mono_right hx h) (le_refl _)

/-- The rounded magnitude does not exceed the top of the binade. -/
theorem round_magnitude_le_top (x : ℚ) :
    round_magnitude x ≤ 2 ^ (float_exponent x + 1) := by
  have hlt : x < 2 ^ (float_exponent x + 1) := by
    have h1 : x < ((2 : ℕ) : ℚ) ^ (Int.log 2 x + 1) := Int.lt_zpow_succ_log_self (by norm_num) x
    have h2 : ((2 : ℕ) : ℚ) ^ (Int.log 2 x + 1) ≤ (2 : ℚ) ^ (float_exponent x + 1) := by
      push_cast
      exact zpow_le_zpow_right₀ (by norm_num) (by unfold float_exponent; omega)
    linarith
  unfold round_magnitude float_ulp
  rw [zpow_scale_high] at hlt ⊢
  have hu : (0 : ℚ) < 2 ^ (float_exponent x - 23) := by positivity
  have h3 : x / 2 ^ (float_exponent x - 23) ≤ ((16777216 : ℤ) : ℚ) := by
    rw [div_le_iff₀ hu]
    push_cast
    linarith
  have h4 := round_even_mono h3
  rw [round_even_intCast] at h4
  have h5 : (round_even (x / 2 ^ (float_exponent x - 23)) : ℚ) ≤ 16777216 := by
    exact_mod_cast h4
  exact mul_le_mul_of_nonneg_right h5 (le_of_lt hu)

/-- Above the subnormal range the rounded magnitude does not fall below the
bottom of the binade. -/
theorem round_magnitude_ge_bottom {x : ℚ} (hx : 0 < x) (he : -126 < float_exponent x) :
    2 ^ (float_exponent x) ≤ round_magnitude x := by
  have hlog : float_exponent x = Int.log 2 x := by
    unfold float_exponent at he ⊢
    rcases le_total (Int.log 2 x) (-126) with h | h
    · rw [max_eq_right h] at he
      omega
    · exact max_eq_left h
  have hle : (2 : ℚ) ^ (float_exponent x) ≤ x := by
    have h1 : ((2 : ℕ) : ℚ) ^ (Int.log 2 x) ≤ x := Int.zpow_log_le_self (by norm_num) hx
    rw [hlog]
    exact_mod_cast h1
  unfold round_magnitude float_ulp
  rw [zpow_scale_low] at hle
  rw [zpow_scale_low (float_exponent x)]
  have hu : (0 : ℚ) < 2 ^ (float_exponent x - 23) := by positivity
  have h3 : ((8388608 : ℤ) : ℚ) ≤ x / 2 ^ (float_exponent x - 23) := by
    rw [le_div_iff₀ hu]
    push_cast
    linarith
  have h4 := round_even_mono h3
  rw [round_even_intCast] at h4
  have h5 : (8388608 : ℚ) ≤ (round_even (x / 2 ^ (float_exponent x - 23)) : ℚ) := by
    exact_mod_cast h4
  exact mul_le_mul_of_nonneg_right h5 (le_of_lt hu)

theorem round_magnitude_mono {x y : ℚ} (hx : 0 < x) (h : x ≤ y) :
    round_magnitude x ≤ round_magnitude y := by
  have hy : 0 < y := lt_of_lt_of_le hx h
  rcases lt_or_eq_of_le (float_exponent_mono hx h) with hlt | heq
  · have h1 := round_magnitude_le_top x
    have hlow : -126 ≤ float_exponent x := by
      unfold float_exponent
      exact le_max_right _ _
    have h2 := round_magnitude_ge_bottom hy (by omega)
    have h3 : (2 : ℚ) ^ (float_exponent x + 1) ≤ 2 ^ (float_exponent y) :=
      zpow_le_zpow_right₀ (by norm_num) (by omega)
    linarith
  · have hu : float_ulp x = float_ulp y := by
      unfold float_ulp
      rw [heq]
    unfold round_magnitude
    rw [hu]
    have h1 : x / float_ulp y ≤ y / float_ulp y :=
      div_le_div_of_nonneg_right h (le_of_lt (float_ulp_pos y))
    have h2 := round_even_mono h1
    exact mul_le_mul_of_nonneg_right (by exact_mod_cast h2) (le_of_lt (float_ulp_pos y))

theorem round_magnitude_zero : round_magnitude 0 = 0 := by
  simp [round_magnitude, round_even]

/-- Rounding to single precision is monotone. -/
theorem round_f32_mono : Monotone round_f32 := by
  intro x y h
  unfold round_f32
  by_cases hx : 0 ≤ x
  · have hy : 0 ≤ y := le_trans hx h
    rw [if_pos hx, if_pos hy]
    rcases lt_or_eq_of_le hx with hpos | hzero
    · exact round_magnitude_mono hpos h
    · rw [← hzero, round_magnitude_zero]
      exact round_magnitude_nonneg hy
  · rw [if_neg hx]
    by_cases hy : 0 ≤ y
    · rw [if_pos hy]
      have h1 := round_magnitude_nonneg (x := -x) (by linarith)
      have h2 := round_magnitude_nonneg hy
      linarith
    · rw [if_neg hy]
      have h1 := round_magnitude_mono (x := -y) (y := -x) (by linarith) (by linarith)
      linarith

theorem float_exponent_eq {x : ℚ} (hx : 0 < x) {e : ℤ} (he : -126 ≤ e)
    (h1 : (2 : ℚ) ^ e ≤ x) (h2 : x < 2 ^ (e + 1)) : float_exponent x = e := by
  have hlog : Int.log 2 x = e := by
    apply le_antisymm
    · have := (Int.lt_zpow_iff_log_lt (b := 2) (by norm_num) hx (x := e + 1)).mp
        (by exact_mod_cast h2)
      omega
    · exact (Int.zpow_le_iff_le_log (b := 2) (by norm_num) hx).mp (by exact_mod_cast h1)
  unfold float_exponent
  rw [hlog]
  exact max_eq_left he

/-- The value of `round_magnitude` on a positive number, from its binade and
the nearest multiple of the unit in the last place. -/
theorem round_magnitude_eq {x : ℚ} (hx : 0 < x) (e m : ℤ) (he : -126 ≤ e)
    (h1 : (2 : ℚ) ^ e ≤ x) (h2 : x < 2 ^ (e + 1))
    (h3 : |x / 2 ^ (e - 23) - m| < 1 / 2) :
    round_magnitude x = m * 2 ^ (e - 23) := by
  unfold round_magnitude float_ulp
  rw [float_exponent_eq hx he h1 h2, round_even_near h3]

/-- A number that is a whole multiple of its unit in the last place is not
changed by rounding. -/
theorem round_magnitude_exact {x : ℚ} (k : ℤ) (h : x / float_ulp x = k) :
    round_magnitude x = x := by
  unfold round_magnitude
  rw [h, round_even_intCast, ← h]
  exact div_mul_cancel₀ x (ne_of_gt (float_ulp_pos x))

/-- Whole numbers up to `2^24` are single-precision values. -/
theorem round_magnitude_natCast (n : ℕ) (h : n ≤ 2 ^ 24) :
    round_magnitude (n : ℚ) = n := by
  rcases Nat.eq_zero_or_pos n with h0 | hpos
  · subst h0
    simpa using round_magnitude_zero
  have hx : (0 : ℚ) < n := by exact_mod_cast hpos
  have hlo : 0 ≤ Int.log 2 (n : ℚ) := by
    have h1 : (1 : ℚ) ≤ n := by exact_mod_cast hpos
    have h2 := Int.log_mono_right (b := 2) (by norm_num : (0 : ℚ) < 1) h1
    have h3 : Int.log 2 (1 : ℚ) = 0 := by simp
    omega
  have hhi : Int.log 2 (n : ℚ) ≤ 24 := by
    have h1 : (n : ℚ) ≤ ((2 : ℕ) : ℚ) ^ (24 : ℤ) := by
      have h2 : (n : ℚ) ≤ ((2 ^ 24 : ℕ) : ℚ) := by exact_mod_cast h
      have h3 : ((2 : ℕ) : ℚ) ^ (24 : ℤ) = ((2 ^ 24 : ℕ) : ℚ) := by norm_num
      rw [h3]
      exact h2
    have := Int.log_mono_right (b := 2) hx h1
    rwa [Int.log_zpow (by norm_num)] at this
  have hexp : float_exponent (n : ℚ) = Int.log 2 (n : ℚ) := by
    unfold float_exponent
    exact max_eq_left (by omega)
  rcases lt_or_eq_of_le hhi with hlt | heq
  · -- the unit in the last place is at most 1
    obtain ⟨d, hd⟩ : ∃ d : ℕ, (d : ℤ) = 23 - Int.log 2 (n : ℚ) :=
      ⟨(23 - Int.log 2 (n : ℚ)).toNat, Int.toNat_of_nonneg (by omega)⟩
    apply round_magnitude_exact ((n : ℤ) * 2 ^ d)
    unfold float_ulp
    rw [hexp]
    have hneg : Int.log 2 (n : ℚ) - 23 = -(d : ℤ) := by omega
    rw [hneg, zpow_neg, zpow_natCast]
    push_cast
    field_simp
  · -- the number is `2^24` itself
    have hge : ((2 : ℕ) : ℚ) ^ (Int.log 2 (n : ℚ)) ≤ n := Int.zpow_log_le_self (by norm_num) hx
    rw [heq] at hge
    have hn : n = 2 ^ 24 := by
      have h1 : ((2 ^ 24 : ℕ) : ℚ) ≤ n := by
        have : ((2 : ℕ) : ℚ) ^ (24 : ℤ) = ((2 ^ 24 : ℕ) : ℚ) := by norm_num
        rw [← this]
        exact hge
      have h2 : 2 ^ 24 ≤ n := by exact_mod_cast h1
      omega
    apply round_magnitude_exact 8388608
    unfold float_ulp
    rw [hexp, heq, hn]
    norm_num

/-- Whole numbers of magnitude up to `2^24` are not changed by rounding to
single precision. -/
theorem round_f32_intCast (n : ℤ) (h : |n| ≤ 2 ^ 24) : round_f32 (n : ℚ) = n := by
  rw [abs_le] at h
  unfold round_f32
  by_cases hn : 0 ≤ n
  · rw [if_pos (by exact_mod_cast hn)]
    have h1 := round_magnitude_natCast n.toNat (by omega)
    have h2 : ((n.toNat : ℕ) : ℚ) = (n : ℚ) := by
      have : ((n.toNat : ℕ) : ℤ) = n := Int.toNat_of_nonneg hn
      exact_mod_cast this
    rwa [h2] at h1
  · rw [if_neg (by exact_mod_cast hn)]
    have h1 := round_magnitude_natCast (-n).toNat (by omega)
    have h2 : (((-n).toNat : ℕ) : ℚ) = -(n : ℚ) := by
      have : (((-n).toNat : ℕ) : ℤ) = -n := Int.toNat_of_nonneg (by omega)
      exact_mod_cast this
    rw [h2] at h1
    rw [h1]
    ring

theorem round_f32_pos {x : ℚ} (hx : 0 < x) : round_f32 x = round_magnitude x := by
  unfold round_f32
  rw [if_pos (le_of_lt hx)]

theorem round_f32_neg {x : ℚ} (hx : 0 < x) : round_f32 (-x) = -round_magnitude x := by
  unfold round_f32
  rw [if_neg (by linarith), neg_neg]

/-! ## Claim C5: the YUV to RGBA conversion -/

theorem truncate_mono {f g : ℚ} (h : f ≤ g) : truncate f ≤ truncate g := by
  unfold truncate
  by_cases hf : 0 ≤ f
  · rw [if_pos hf, if_pos (le_trans hf h)]
    exact Int.floor_mono h
  · rw [if_neg hf]
    by_cases hg : 0 ≤ g
    · rw [if_pos hg]
      have h1 : ⌈f⌉ ≤ 0 := Int.ceil_le.mpr (by push_cast; linarith)
      have h2 : 0 ≤ ⌊g⌋ := Int.floor_nonneg.mpr hg
      omega
    · rw [if_neg hg]
      exact Int.ceil_mono h

theorem clamp_byte_val (n : ℤ) : ((clamp_byte n).val : ℤ) = max 0 (min 255 n) := by
  unfold clamp_byte to_byte
  simp only
  have h1 : 0 ≤ max 0 (min 255 n) := le_max_left _ _
  have h2 : max 0 (min 255 n) ≤ 255 := max_le (by norm_num) (min_le_left _ _)
  omega

theorem clamp_byte_mono {m n : ℤ} (h : m ≤ n) : clamp_byte m ≤ clamp_byte n := by
  rw [Fin.le_def]
  have h1 := clamp_byte_val m
  have h2 := clamp_byte_val n
  have h3 : max 0 (min 255 m) ≤ max 0 (min 255 n) := max_le_max (le_refl _) (min_le_min (le_refl _) h)
  omega

theorem cl_of_bounded {f : ℚ} (h : |f| ≤ 2295) : cl f = some (clamp_byte (truncate f)) := by
  rw [abs_le] at h
  unfold cl float_to_int
  rw [if_pos ⟨by linarith [h.1], by linarith [h.2]⟩]
  rfl

theorem shiftRight_lor (a b i : Nat) : (a ||| b) >>> i = a >>> i ||| b >>> i := by
  apply Nat.eq_of_testBit_eq
  intro j
  simp only [Nat.testBit_shiftRight, Nat.testBit_or]

theorem pack_rgba_alpha (R G B : Byte) : pack_rgba R G B >>> 24 = 255 := by
  unfold pack_rgba
  have hR := R.isLt
  have hG := G.isLt
  have hB := B.isLt
  have h1 : R.val >>> 24 = 0 := by
    rw [Nat.shiftRight_eq_div_pow]
    exact Nat.div_eq_of_lt (by omega)
  have h2 : (G.val <<< 8) >>> 24 = 0 := by
    rw [Nat.shiftRight_eq_div_pow, Nat.shiftLeft_eq]
    exact Nat.div_eq_of_lt (by omega)
  have h3 : (B.val <<< 16) >>> 24 = 0 := by
    rw [Nat.shiftRight_eq_div_pow, Nat.shiftLeft_eq]
    exact Nat.div_eq_of_lt (by omega)
  rw [shiftRight_lor, shiftRight_lor, shiftRight_lor, h1, h2, h3]
  decide

/-- A monotone rounding that fixes whole numbers keeps a value between the
whole bounds it lies between. -/
theorem rnd_between (rnd : ℚ → ℚ) (hmono : Monotone rnd)
    (hint : ∀ n : ℤ, |n| ≤ 2 ^ 24 → rnd (n : ℚ) = n) {x : ℚ} (lo hi : ℤ)
    (hlo : |lo| ≤ 2 ^ 24) (hhi : |hi| ≤ 2 ^ 24) (h1 : (lo : ℚ) ≤ x) (h2 : x ≤ hi) :
    (lo : ℚ) ≤ rnd x ∧ rnd x ≤ hi := by
  constructor
  · rw [← hint lo hlo]
    exact hmono h1
  · rw [← hint hi hhi]
    exact hmono h2

theorem rnd_const (rnd : ℚ → ℚ) (hmono : Monotone rnd)
    (hint : ∀ n : ℤ, |n| ≤ 2 ^ 24 → rnd (n : ℚ) = n) {q : ℚ} (h0 : 0 ≤ q) (h3 : q ≤ 3) :
    0 ≤ rnd q ∧ rnd q ≤ 3 := by
  have h := rnd_between rnd hmono hint 0 3 (by norm_num) (by norm_num)
    (by simpa using h0) (by simpa using h3)
  simpa using h

theorem float_offset_eq (rnd : ℚ → ℚ)
    (hint : ∀ n : ℤ, |n| ≤ 2 ^ 24 → rnd (n : ℚ) = n) (sample : Byte) (k : ℕ)
    (hk : k ≤ 255) : float_offset rnd sample (k : ℚ) = (sample.val : ℚ) - k := by
  have hs := sample.isLt
  have h1 : rnd (sample.val : ℚ) = sample.val := by
    have := hint (sample.val : ℤ) (by rw [abs_le]; constructor <;> omega)
    exact_mod_cast this
  have h2 : rnd (k : ℚ) = k := by
    have := hint (k : ℤ) (by rw [abs_le]; constructor <;> omega)
    exact_mod_cast this
  have h3 : rnd (((sample.val : ℤ) - (k : ℤ) : ℤ) : ℚ) = ((sample.val : ℤ) - (k : ℤ) : ℤ) :=
    hint _ (by rw [abs_le]; constructor <;> omega)
  unfold float_offset
  rw [h1, h2]
  push_cast at h3
  exact h3

theorem float_offset_bound (rnd : ℚ → ℚ)
    (hint : ∀ n : ℤ, |n| ≤ 2 ^ 24 → rnd (n : ℚ) = n) (sample : Byte) (k : ℕ)
    (hk : k ≤ 255) : |float_offset rnd sample (k : ℚ)| ≤ 255 := by
  rw [float_offset_eq rnd hint sample k hk, abs_le]
  have hs : (sample.val : ℚ) ≤ 255 := by
    exact_mod_cast (Nat.le_of_lt_succ sample.isLt)
  have hs0 : (0 : ℚ) ≤ sample.val := by positivity
  have hk1 : (k : ℚ) ≤ 255 := by exact_mod_cast hk
  have hk0 : (0 : ℚ) ≤ k := by positivity
  constructor <;> linarith

/-- A rounded product of a constant in `[0, 3]` and an offset. -/
theorem product_bound (rnd : ℚ → ℚ) (hmono : Monotone rnd)
    (hint : ∀ n : ℤ, |n| ≤ 2 ^ 24 → rnd (n : ℚ) = n) {c d : ℚ}
    (hc0 : 0 ≤ c) (hc3 : c ≤ 3) (hd : |d| ≤ 255) : |rnd (c * d)| ≤ 765 := by
  rw [abs_le] at hd ⊢
  have h := rnd_between rnd hmono hint (x := c * d) (-765) 765 (by norm_num) (by norm_num)
    (by push_cast; nlinarith [hd.1, hd.2]) (by push_cast; nlinarith [hd.1, hd.2])
  push_cast at h
  exact h

/-- A rounded sum or difference of two bounded values. -/
theorem sum_bound (rnd : ℚ → ℚ) (hmono : Monotone rnd)
    (hint : ∀ n : ℤ, |n| ≤ 2 ^ 24 → rnd (n : ℚ) = n) {x : ℚ} (N : ℕ) (hN : N ≤ 2295)
    (hx : |x| ≤ N) : |rnd x| ≤ N := by
  rw [abs_le] at hx ⊢
  have h := rnd_between rnd hmono hint (x := x) (-(N : ℤ)) N
    (by rw [abs_le]; constructor <;> omega) (by rw [abs_le]; constructor <;> omega)
    (by push_cast; exact hx.1) (by push_cast; exact hx.2)
  push_cast at h
  exact h

theorem product_mono (rnd : ℚ → ℚ) (hmono : Monotone rnd) {c d e : ℚ} (hc : 0 ≤ c)
    (h : d ≤ e) : rnd (c * d) ≤ rnd (c * e) :=
  hmono (mul_le_mul_of_nonneg_left h hc)

theorem float_offset_mono (rnd : ℚ → ℚ)
    (hint : ∀ n : ℤ, |n| ≤ 2 ^ 24 → rnd (n : ℚ) = n) {Y Y2 : Byte} (h : Y ≤ Y2) (k : ℕ)
    (hk : k ≤ 255) : float_offset rnd Y (k : ℚ) ≤ float_offset rnd Y2 (k : ℚ) := by
  rw [float_offset_eq rnd hint Y k hk, float_offset_eq rnd hint Y2 k hk]
  have : (Y.val : ℚ) ≤ Y2.val := by exact_mod_cast (Fin.le_def.mp h)
  linarith

theorem C5_setup_constants (rnd : ℚ → ℚ) (hmono : Monotone rnd)
    (hint : ∀ n : ℤ, |n| ≤ 2 ^ 24 → rnd (n : ℚ) = n) :
    (0 ≤ rnd (1164 / 1000) ∧ rnd (1164 / 1000) ≤ 3) ∧
    (0 ≤ rnd (1596 / 1000) ∧ rnd (1596 / 1000) ≤ 3) ∧
    (0 ≤ rnd (391 / 1000) ∧ rnd (391 / 1000) ≤ 3) ∧
    (0 ≤ rnd (813 / 1000) ∧ rnd (813 / 1000) ≤ 3) ∧
    (0 ≤ rnd (2017 / 1000) ∧ rnd (2017 / 1000) ≤ 3) :=
  ⟨rnd_const rnd hmono hint (by norm_num) (by norm_num),
    rnd_const rnd hmono hint (by norm_num) (by norm_num),
    rnd_const rnd hmono hint (by norm_num) (by norm_num),
    rnd_const rnd hmono hint (by norm_num) (by norm_num),
    rnd_const rnd hmono hint (by norm_num) (by norm_num)⟩

theorem offset_16 : (16 : ℚ) = ((16 : ℕ) : ℚ) := by norm_num

theorem offset_128 : (128 : ℚ) = ((128 : ℕ) : ℚ) := by norm_num

theorem red_value_bound (rnd : ℚ → ℚ) (hmono : Monotone rnd)
    (hint : ∀ n : ℤ, |n| ≤ 2 ^ 24 → rnd (n : ℚ) = n) (Y V : Byte) :
    |red_value rnd Y V| ≤ 2295 := by
  obtain ⟨c1, c2, _, _, _⟩ := C5_setup_constants rnd hmono hint
  have hY := float_offset_bound rnd hint Y 16 (by norm_num)
  have hV := float_offset_bound rnd hint V 128 (by norm_num)
  rw [← offset_16] at hY
  rw [← offset_128] at hV
  have a := product_bound rnd hmono hint c1.1 c1.2 hY
  have b := product_bound rnd hmono hint c2.1 c2.2 hV
  have h := sum_bound rnd hmono hint
    (x := rnd (rnd (1164 / 1000) * float_offset rnd Y 16) +
      rnd (rnd (1596 / 1000) * float_offset rnd V 128)) 1530 (by norm_num)
    (by
      push_cast
      rw [abs_le] at a b ⊢
      constructor <;> linarith [a.1, a.2, b.1, b.2])
  unfold red_value
  push_cast at h
  linarith

theorem blue_value_bound (rnd : ℚ → ℚ) (hmono : Monotone rnd)
    (hint : ∀ n : ℤ, |n| ≤ 2 ^ 24 → rnd (n : ℚ) = n) (Y U : Byte) :
    |blue_value rnd Y U| ≤ 2295 := by
  obtain ⟨c1, _, _, _, c5⟩ := C5_setup_constants rnd hmono hint
  have hY := float_offset_bound rnd hint Y 16 (by norm_num)
  have hU := float_offset_bound rnd hint U 128 (by norm_num)
  rw [← offset_16] at hY
  rw [← offset_128] at hU
  have a := product_bound rnd hmono hint c1.1 c1.2 hY
  have b := product_bound rnd hmono hint c5.1 c5.2 hU
  have h := sum_bound rnd hmono hint
    (x := rnd (rnd (1164 / 1000) * float_offset rnd Y 16) +
      rnd (rnd (2017 / 1000) * float_offset rnd U 128)) 1530 (by norm_num)
    (by
      push_cast
      rw [abs_le] at a b ⊢
      constructor <;> linarith [a.1, a.2, b.1, b.2])
  unfold blue_value
  push_cast at h
  linarith

theorem green_value_bound (rnd : ℚ → ℚ) (hmono : Monotone rnd)
    (hint : ∀ n : ℤ, |n| ≤ 2 ^ 24 → rnd (n : ℚ) = n) (Y U V : Byte) :
    |green_value rnd Y U V| ≤ 2295 := by
  obtain ⟨c1, _, c3, c4, _⟩ := C5_setup_constants rnd hmono hint
  have hY := float_offset_bound rnd hint Y 16 (by norm_num)
  have hU := float_offset_bound rnd hint U 128 (by norm_num)
  have hV := float_offset_bound rnd hint V 128 (by norm_num)
  rw [← offset_16] at hY
  rw [← offset_128] at hU hV
  have a := product_bound rnd hmono hint c1.1 c1.2 hY
  have b := product_bound rnd hmono hint c3.1 c3.2 hU
  have c := product_bound rnd hmono hint c4.1 c4.2 hV
  have h1 := sum_bound rnd hmono hint
    (x := rnd (rnd (1164 / 1000) * float_offset rnd Y 16) -
      rnd (rnd (391 / 1000) * float_offset rnd U 128)) 1530 (by norm_num)
    (by
      push_cast
      rw [abs_le] at a b ⊢
      constructor <;> linarith [a.1, a.2, b.1, b.2])
  have h := sum_bound rnd hmono hint
    (x := rnd (rnd (rnd (1164 / 1000) * float_offset rnd Y 16) -
        rnd (rnd (391 / 1000) * float_offset rnd U 128)) -
      rnd (rnd (813 / 1000) * float_offset rnd V 128)) 2295 (by norm_num)
    (by
      push_cast at h1 ⊢
      rw [abs_le] at h1 c ⊢
      constructor <;> linarith [h1.1, h1.2, c.1, c.2])
  unfold green_value
  push_cast at h
  exact h

theorem red_value_mono (rnd : ℚ → ℚ) (hmono : Monotone rnd)
    (hint : ∀ n : ℤ, |n| ≤ 2 ^ 24 → rnd (n : ℚ) = n) {Y Y2 : Byte} (h : Y ≤ Y2)
    (V : Byte) : red_value rnd Y V ≤ red_value rnd Y2 V := by
  obtain ⟨c1, _, _, _, _⟩ := C5_setup_constants rnd hmono hint
  have hd := float_offset_mono rnd hint h 16 (by norm_num)
  rw [← offset_16] at hd
  have ha := product_mono rnd hmono c1.1 hd
  unfold red_value
  exact hmono (by linarith)

theorem blue_value_mono (rnd : ℚ → ℚ) (hmono : Monotone rnd)
    (hint : ∀ n : ℤ, |n| ≤ 2 ^ 24 → rnd (n : ℚ) = n) {Y Y2 : Byte} (h : Y ≤ Y2)
    (U : Byte) : blue_value rnd Y U ≤ blue_value rnd Y2 U := by
  obtain ⟨c1, _, _, _, _⟩ := C5_setup_constants rnd hmono hint
  have hd := float_offset_mono rnd hint h 16 (by norm_num)
  rw [← offset_16] at hd
  have ha := product_mono rnd hmono c1.1 hd
  unfold blue_value
  exact hmono (by linarith)

theorem green_value_mono (rnd : ℚ → ℚ) (hmono : Monotone rnd)
    (hint : ∀ n : ℤ, |n| ≤ 2 ^ 24 → rnd (n : ℚ) = n) {Y Y2 : Byte} (h : Y ≤ Y2)
    (U V : Byte) : green_value rnd Y U V ≤ green_value rnd Y2 U V := by
  obtain ⟨c1, _, _, _, _⟩ := C5_setup_constants rnd hmono hint
  have hd := float_offset_mono rnd hint h 16 (by norm_num)
  rw [← offset_16] at hd
  have ha := product_mono rnd hmono c1.1 hd
  unfold green_value
  have h1 : rnd (rnd (rnd (1164 / 1000) * float_offset rnd Y 16) -
        rnd (rnd (391 / 1000) * float_offset rnd U 128)) ≤
      rnd (rnd (rnd (1164 / 1000) * float_offset rnd Y2 16) -
        rnd (rnd (391 / 1000) * float_offset rnd U 128)) := hmono (by linarith)
  exact hmono (by linarith)

/-- At `Y = 16`, `U = V = 128` every product and sum of the conversion is 0. -/
theorem black_point_values (rnd : ℚ → ℚ)
    (hint : ∀ n : ℤ, |n| ≤ 2 ^ 24 → rnd (n : ℚ) = n) :
    red_value rnd 16 128 = 0 ∧ green_value rnd 16 128 128 = 0 ∧
      blue_value rnd 16 128 = 0 := by
  have h0 : rnd 0 = 0 := by
    have := hint 0 (by norm_num)
    simpa using this
  have hY : float_offset rnd 16 16 = 0 := by
    have := float_offset_eq rnd hint 16 16 (by norm_num)
    rw [← offset_16] at this
    rw [this]
    have hv : (16 : Byte).val = 16 := rfl
    rw [hv]
    norm_num
  have hU : float_offset rnd 128 128 = 0 := by
    have := float_offset_eq rnd hint 128 128 (by norm_num)
    rw [← offset_128] at this
    rw [this]
    have hv : (128 : Byte).val = 128 := rfl
    rw [hv]
    norm_num
  unfold red_value green_value blue_value
  simp only [hY, hU, mul_zero, h0, add_zero, sub_zero, and_self]

theorem round_f32_value {x : ℚ} (hx : 0 < x) (e m : ℤ) (he : -126 ≤ e)
    (h1 : (2 : ℚ) ^ e ≤ x) (h2 : x < 2 ^ (e + 1))
    (h3 : |x / 2 ^ (e - 23) - m| < 1 / 2) :
    round_f32 x = m * 2 ^ (e - 23) := by
  rw [round_f32_pos hx]
  exact round_magnitude_eq hx e m he h1 h2 h3

theorem red_value_at_14_246 : red_value round_f32 14 246 = 12189695 / 65536 := by
  have hY : float_offset round_f32 14 16 = -2 := by
    have h := float_offset_eq round_f32 round_f32_intCast 14 16 (by norm_num)
    have hv : (14 : Byte).val = 14 := rfl
    rw [hv] at h
    norm_num at h
    exact h
  have hV : float_offset round_f32 246 128 = 118 := by
    have h := float_offset_eq round_f32 round_f32_intCast 246 128 (by norm_num)
    have hv : (246 : Byte).val = 246 := rfl
    rw [hv] at h
    norm_num at h
    exact h
  have c1 : round_f32 (1164 / 1000) = 9764340 / 8388608 := by
    rw [round_f32_value (by norm_num) 0 9764340 (by norm_num) (by norm_num) (by norm_num)
      (by rw [abs_lt]; constructor <;> norm_num)]
    norm_num
  have c2 : round_f32 (1596 / 1000) = 13388218 / 8388608 := by
    rw [round_f32_value (by norm_num) 0 13388218 (by norm_num) (by norm_num) (by norm_num)
      (by rw [abs_lt]; constructor <;> norm_num)]
    norm_num
  have p1 : round_f32 (9764340 / 8388608 * -2) = -(9764340 / 4194304) := by
    have hneg : (9764340 / 8388608 * -2 : ℚ) = -(9764340 / 4194304) := by norm_num
    rw [hneg, round_f32_neg (by norm_num),
      round_magnitude_eq (by norm_num) 1 9764340 (by norm_num) (by norm_num) (by norm_num)
        (by rw [abs_lt]; constructor <;> norm_num)]
    norm_num
  have p2 : round_f32 (13388218 / 8388608 * 118) = 12342263 / 65536 := by
    rw [round_f32_value (by norm_num) 7 12342263 (by norm_num) (by norm_num) (by norm_num)
      (by rw [abs_lt]; constructor <;> norm_num)]
    norm_num
  have s : round_f32 (-(9764340 / 4194304) + 12342263 / 65536) = 12189695 / 65536 := by
    rw [round_f32_value (by norm_num) 7 12189695 (by norm_num) (by norm_num) (by norm_num)
      (by rw [abs_lt]; constructor <;> norm_num)]
    norm_num
  unfold red_value
  rw [hY, hV, c1, c2, p1, p2, s]

/-- C5, as stated, fails: at `Y = 14`, `V = 246` the formula
`1.164(Y-16) + 1.596(V-128)` is exactly 186, while the single-precision
evaluation of the source yields `186 - 2^-16`, which truncates to 185. -/
theorem C5_counterexample :
    red_value round_f32 14 246 = 186 - 1 / 65536 ∧
    red_channel round_f32 14 246 = some 185 ∧
    exact_red 14 246 = 186 := by
  refine ⟨by rw [red_value_at_14_246]; norm_num, ?_, ?_⟩
  · unfold red_channel cl float_to_int
    rw [red_value_at_14_246, if_pos (by constructor <;> norm_num)]
    have ht : truncate (12189695 / 65536) = 185 := by
      unfold truncate
      rw [if_pos (by norm_num), Int.floor_eq_iff]
      constructor <;> norm_num
    rw [ht]
    rfl
  · unfold exact_red
    have hv1 : (14 : Byte).val = 14 := rfl
    have hv2 : (246 : Byte).val = 246 := rfl
    rw [hv1, hv2]
    have hx : (1164 / 1000 * (((14 : ℕ) : ℚ) - 16) + 1596 / 1000 * (((246 : ℕ) : ℚ) - 128)) =
        ((186 : ℤ) : ℚ) := by norm_num
    rw [hx]
    have ht : truncate ((186 : ℤ) : ℚ) = 186 := by
      unfold truncate
      rw [if_pos (by norm_num), Int.floor_intCast]
    rw [ht]
    rfl

theorem channel_of_bounded {f : ℚ} (h : |f| ≤ 2295) :
    ∃ C : Byte, cl f = some C ∧ (C.val : ℤ) = max 0 (min 255 (truncate f)) ∧
      C = clamp_byte (truncate f) :=
  ⟨clamp_byte (truncate f), cl_of_bounded h, clamp_byte_val _, rfl⟩

/-- C5, amended: with a rounding that is monotone and fixes the whole
numbers up to `2^24` (as single precision does), for every 8-bit `Y`, `U`,
`V` each of `R`, `G`, `B` is defined and is the floating-point value of its
formula (every literal, product and sum rounded) truncated toward zero and
clamped into `[0, 255]`, alpha is 255, each channel is non-decreasing in `Y`
with `U` and `V` fixed, and `Y = 16`, `U = V = 128` gives `(0, 0, 0)`. -/
theorem C5_conversion_clipped_and_monotone (rnd : ℚ → ℚ) (hmono : Monotone rnd)
    (hint : ∀ n : ℤ, |n| ≤ 2 ^ 24 → rnd (n : ℚ) = n) (Y Y2 U V : Byte) (hY : Y ≤ Y2) :
    (∃ R G B : Byte,
      red_channel rnd Y V = some R ∧ green_channel rnd Y U V = some G ∧
      blue_channel rnd Y U = some B ∧
      (R.val : ℤ) = max 0 (min 255 (truncate (red_value rnd Y V))) ∧
      (G.val : ℤ) = max 0 (min 255 (truncate (green_value rnd Y U V))) ∧
      (B.val : ℤ) = max 0 (min 255 (truncate (blue_value rnd Y U))) ∧
      R.val ≤ 255 ∧ G.val ≤ 255 ∧ B.val ≤ 255 ∧
      yuv_to_rgba rnd Y U V = some (pack_rgba R G B) ∧
      pack_rgba R G B >>> 24 = 255 ∧
      ∃ R2 G2 B2 : Byte,
        red_channel rnd Y2 V = some R2 ∧ green_channel rnd Y2 U V = some G2 ∧
        blue_channel rnd Y2 U = some B2 ∧ R ≤ R2 ∧ G ≤ G2 ∧ B ≤ B2) ∧
    (red_channel rnd 16 128 = some 0 ∧ green_channel rnd 16 128 128 = some 0 ∧
      blue_channel rnd 16 128 = some 0 ∧
      yuv_to_rgba rnd 16 128 128 = some (pack_rgba 0 0 0)) := by
  constructor
  · obtain ⟨R, hR, hRv, hRc⟩ := channel_of_bounded (red_value_bound rnd hmono hint Y V)
    obtain ⟨G, hG, hGv, hGc⟩ := channel_of_bounded (green_value_bound rnd hmono hint Y U V)
    obtain ⟨B, hB, hBv, hBc⟩ := channel_of_bounded (blue_value_bound rnd hmono hint Y U)
    obtain ⟨R2, hR2, _, hR2c⟩ := channel_of_bounded (red_value_bound rnd hmono hint Y2 V)
    obtain ⟨G2, hG2, _, hG2c⟩ :=
      channel_of_bounded (green_value_bound rnd hmono hint Y2 U V)
    obtain ⟨B2, hB2, _, hB2c⟩ := channel_of_bounded (blue_value_bound rnd hmono hint Y2 U)
    refine ⟨R, G, B, hR, hG, hB, hRv, hGv, hBv, Nat.le_of_lt_succ R.isLt,
      Nat.le_of_lt_succ G.isLt, Nat.le_of_lt_succ B.isLt, ?_, pack_rgba_alpha R G B,
      R2, G2, B2, hR2, hG2, hB2, ?_, ?_, ?_⟩
    · simp only [yuv_to_rgba, red_channel, green_channel, blue_channel, hR, hG, hB]
    · rw [hRc, hR2c]
      exact clamp_byte_mono (truncate_mono (red_value_mono rnd hmono hint hY V))
    · rw [hGc, hG2c]
      exact clamp_byte_mono (truncate_mono (green_value_mono rnd hmono hint hY U V))
    · rw [hBc, hB2c]
      exact clamp_byte_mono (truncate_mono (blue_value_mono rnd hmono hint hY U))
  · obtain ⟨h1, h2, h3⟩ := black_point_values rnd hint
    have hcl : cl 0 = some 0 := by
      rw [cl_of_bounded (by norm_num)]
      rfl
    have hr : red_channel rnd 16 128 = some 0 := by rw [red_channel, h1, hcl]
    have hg : green_channel rnd 16 128 128 = some 0 := by rw [green_channel, h2, hcl]
    have hb : blue_channel rnd 16 128 = some 0 := by rw [blue_channel, h3, hcl]
    refine ⟨hr, hg, hb, ?_⟩
    simp only [yuv_to_rgba, hr, hg, hb]

/-- C5, amended, for IEEE 754 single precision at `Y = 14 ≤ 15`, `U = 128`,
`V = 246`. -/
theorem C5_conversion_clipped_and_monotone_witness :
    (∃ R G B : Byte,
      red_channel round_f32 14 246 = some R ∧ green_channel round_f32 14 128 246 = some G ∧
      blue_channel round_f32 14 128 = some B ∧
      (R.val : ℤ) = max 0 (min 255 (truncate (red_value round_f32 14 246))) ∧
      (G.val : ℤ) = max 0 (min 255 (truncate (green_value round_f32 14 128 246))) ∧
      (B.val : ℤ) = max 0 (min 255 (truncate (blue_value round_f32 14 128))) ∧
      R.val ≤ 255 ∧ G.val ≤ 255 ∧ B.val ≤ 255 ∧
      yuv_to_rgba round_f32 14 128 246 = some (pack_rgba R G B) ∧
      pack_rgba R G B >>> 24 = 255 ∧
      ∃ R2 G2 B2 : Byte,
        red_channel round_f32 15 246 = some R2 ∧
        green_channel round_f32 15 128 246 = some G2 ∧
        blue_channel round_f32 15 128 = some B2 ∧ R ≤ R2 ∧ G ≤ G2 ∧ B ≤ B2) ∧
    (red_channel round_f32 16 128 = some 0 ∧ green_channel round_f32 16 128 128 = some 0 ∧
      blue_channel round_f32 16 128 = some 0 ∧
      yuv_to_rgba round_f32 16 128 128 = some (pack_rgba 0 0 0)) :=
  C5_conversion_clipped_and_monotone round_f32 round_f32_mono round_f32_intCast
    14 15 128 246 (by decide)

end Trance
